import Mathlib

/-!
# Verification of the CUDA flocking ("boids") simulation kernels

Shallow embedding of `src/kernel.cu`. The CUDA kernels are data-parallel:
one independent task per particle (or per cell), with barriers between
phases; we model each kernel as a pure function from its inputs to the
array of outputs.  `float` arithmetic is modelled by exact real arithmetic
(`ℝ`): the specification explicitly treats the strategies as equal only
"up to floating-point summation-order differences", so the idealized
field is the intended semantics.  Parallel loop accumulations are modelled
by sums over the iteration list in iteration order (loop fission of the
four independent accumulators of the source loop is applied; each
accumulator is an independent sum, as the spec notes: "associative
accumulation").
-/

/-! ## Simulation parameters (`#define` constants in kernel.cu) -/

noncomputable section

def rule1Distance : ℝ := 5
def rule2Distance : ℝ := 3
def rule3Distance : ℝ := 5

def rule1Scale : ℝ := 1/100
def rule2Scale : ℝ := 1/10
def rule3Scale : ℝ := 1/10

def maxSpeed : ℝ := 2

def scene_scale : ℝ := 100

def cell_width_mul : ℝ := 2

/-! ## `glm::vec3` and `glm::i32vec3` -/

/-- Model of `glm::vec3` (componentwise real arithmetic). -/
@[ext]
structure V3 where
  x : ℝ
  y : ℝ
  z : ℝ

namespace V3

instance : Zero V3 := ⟨⟨0, 0, 0⟩⟩
instance : Add V3 := ⟨fun a b => ⟨a.x + b.x, a.y + b.y, a.z + b.z⟩⟩
instance : Neg V3 := ⟨fun a => ⟨-a.x, -a.y, -a.z⟩⟩
instance : Sub V3 := ⟨fun a b => ⟨a.x - b.x, a.y - b.y, a.z - b.z⟩⟩
instance : SMul ℝ V3 := ⟨fun t a => ⟨t * a.x, t * a.y, t * a.z⟩⟩

@[simp] theorem zero_x : (0 : V3).x = 0 := rfl
@[simp] theorem zero_y : (0 : V3).y = 0 := rfl
@[simp] theorem zero_z : (0 : V3).z = 0 := rfl
@[simp] theorem add_x (a b : V3) : (a + b).x = a.x + b.x := rfl
@[simp] theorem add_y (a b : V3) : (a + b).y = a.y + b.y := rfl
@[simp] theorem add_z (a b : V3) : (a + b).z = a.z + b.z := rfl
@[simp] theorem neg_x (a : V3) : (-a).x = -a.x := rfl
@[simp] theorem neg_y (a : V3) : (-a).y = -a.y := rfl
@[simp] theorem neg_z (a : V3) : (-a).z = -a.z := rfl
@[simp] theorem sub_x (a b : V3) : (a - b).x = a.x - b.x := rfl
@[simp] theorem sub_y (a b : V3) : (a - b).y = a.y - b.y := rfl
@[simp] theorem sub_z (a b : V3) : (a - b).z = a.z - b.z := rfl
@[simp] theorem smul_x (t : ℝ) (a : V3) : (t • a).x = t * a.x := rfl
@[simp] theorem smul_y (t : ℝ) (a : V3) : (t • a).y = t * a.y := rfl
@[simp] theorem smul_z (t : ℝ) (a : V3) : (t • a).z = t * a.z := rfl

instance : AddCommGroup V3 where
  add_assoc a b c := by ext <;> simp <;> ring
  zero_add a := by ext <;> simp
  add_zero a := by ext <;> simp
  add_comm a b := by ext <;> simp <;> ring
  neg_add_cancel a := by ext <;> simp
  sub_eq_add_neg a b := by ext <;> simp <;> ring
  nsmul := nsmulRec
  zsmul := zsmulRec

instance : Module ℝ V3 where
  one_smul a := by ext <;> simp
  mul_smul s t a := by ext <;> simp <;> ring
  smul_zero t := by ext <;> simp
  smul_add t a b := by ext <;> simp <;> ring
  add_smul s t a := by ext <;> simp <;> ring
  zero_smul a := by ext <;> simp

/-- `glm::length` : Euclidean norm. -/
def length (v : V3) : ℝ := Real.sqrt (v.x ^ 2 + v.y ^ 2 + v.z ^ 2)

/-- `glm::distance` : Euclidean distance. -/
def dist (a b : V3) : ℝ := length (a - b)

theorem length_nonneg (v : V3) : 0 ≤ length v := Real.sqrt_nonneg _

theorem dist_comm (a b : V3) : dist a b = dist b a := by
  unfold dist length
  congr 1
  simp only [V3.sub_x, V3.sub_y, V3.sub_z]
  ring

theorem length_smul (t : ℝ) (v : V3) : length (t • v) = |t| * length v := by
  unfold length
  rw [show (t • v).x ^ 2 + (t • v).y ^ 2 + (t • v).z ^ 2
      = t ^ 2 * (v.x ^ 2 + v.y ^ 2 + v.z ^ 2) by simp; ring]
  rw [Real.sqrt_mul (sq_nonneg t), Real.sqrt_sq_eq_abs]

/-- Each coordinate is bounded by the norm. -/
theorem abs_x_le_length (v : V3) : |v.x| ≤ length v := by
  unfold length
  rw [← Real.sqrt_sq_eq_abs]
  apply Real.sqrt_le_sqrt
  nlinarith [sq_nonneg v.y, sq_nonneg v.z]

theorem abs_y_le_length (v : V3) : |v.y| ≤ length v := by
  unfold length
  rw [← Real.sqrt_sq_eq_abs]
  apply Real.sqrt_le_sqrt
  nlinarith [sq_nonneg v.x, sq_nonneg v.z]

theorem abs_z_le_length (v : V3) : |v.z| ≤ length v := by
  unfold length
  rw [← Real.sqrt_sq_eq_abs]
  apply Real.sqrt_le_sqrt
  nlinarith [sq_nonneg v.x, sq_nonneg v.y]

/-- World bounds: the position lies in `[-scene_scale, scene_scale]` per axis. -/
def inBounds (p : V3) : Prop :=
  |p.x| ≤ scene_scale ∧ |p.y| ≤ scene_scale ∧ |p.z| ≤ scene_scale

end V3

/-- Model of `glm::i32vec3` (the `int` coordinates stay well inside 32 bits
for this grid, so `ℤ` is used). -/
@[ext]
structure I3 where
  x : ℤ
  y : ℤ
  z : ℤ
  deriving DecidableEq

end

/-! ## The neighbour-rule evaluator (`computeVelocityChange` and the
identical accumulation bodies inlined in the two grid kernels) -/

noncomputable section

open Classical in
/-- The candidates of `cands` that the loop body counts for a rule with
radius `ρ`: not the particle itself, and strictly within `ρ`
(`if (i != index)` guard plus `dist < ρ` test, in loop order). -/
def ruleNeighbors {ι : Type} (ρ : ℝ) (pos : ι → V3) (self : ι)
    (cands : List ι) : List ι :=
  cands.filter (fun j => j ≠ self ∧ V3.dist (pos j) (pos self) < ρ)

/-- The three-rule velocity delta computed by the accumulation loop shared
by `computeVelocityChange`, `kernUpdateVelNeighborSearchScattered` and
`kernUpdateVelNeighborSearchCoherent`:
`perceived_center`, `rule2offset` and `perceived_velocity` are accumulated
over the candidate list, then combined exactly as in the source
(`(pc/n1 - pos[self])*rule1Scale + rule2offset*rule2Scale + (pv/n3)*rule3Scale`,
with each average taken only when its neighbour count is nonzero). -/
def velocityRules {ι : Type} (pos vel : ι → V3) (self : ι)
    (cands : List ι) : V3 :=
  let n1 := (ruleNeighbors rule1Distance pos self cands).length
  let perceived_center := ((ruleNeighbors rule1Distance pos self cands).map pos).sum
  let rule2offset :=
    ((ruleNeighbors rule2Distance pos self cands).map (fun j => pos self - pos j)).sum
  let n3 := (ruleNeighbors rule3Distance pos self cands).length
  let perceived_velocity := ((ruleNeighbors rule3Distance pos self cands).map vel).sum
  (if n1 ≠ 0 then rule1Scale • ((n1 : ℝ)⁻¹ • perceived_center - pos self)
   else perceived_center) +
  rule2Scale • rule2offset +
  (if n3 ≠ 0 then rule3Scale • ((n3 : ℝ)⁻¹ • perceived_velocity)
   else perceived_velocity)

/-- `computeVelocityChange(N, iSelf, pos, vel)` : the brute-force rule
evaluation iterates over all `N` particles, skipping `iSelf`. -/
def computeVelocityChange (n : ℕ) (iSelf : Fin n) (pos vel : Fin n → V3) : V3 :=
  velocityRules pos vel iSelf (List.finRange n)

/-- The speed clamp at the end of every velocity-update kernel:
`if (speed > maxSpeed) velocity = velocity / speed * maxSpeed`. -/
def clampSpeed (v : V3) : V3 :=
  if V3.length v > maxSpeed then (maxSpeed / V3.length v) • v else v

/-- `kernUpdateVelocityBruteForce` : per particle, add the rule delta to
the current velocity and clamp; the result is the contents of `vel2`. -/
def kernUpdateVelocityBruteForce (n : ℕ) (pos vel1 : Fin n → V3) :
    Fin n → V3 :=
  fun index => clampSpeed (vel1 index + computeVelocityChange n index pos vel1)

/-- `kernUpdatePos` : integrate `pos += vel * dt`, then wrap each axis
with the two sequential conditionals of the source
(`< -scene_scale ↦ scene_scale` first, then `> scene_scale ↦ -scene_scale`). -/
def kernUpdatePos (n : ℕ) (dt : ℝ) (pos vel : Fin n → V3) : Fin n → V3 :=
  fun index =>
    let thisPos := pos index + dt • vel index
    let p1 : V3 := ⟨if thisPos.x < -scene_scale then scene_scale else thisPos.x,
                    if thisPos.y < -scene_scale then scene_scale else thisPos.y,
                    if thisPos.z < -scene_scale then scene_scale else thisPos.z⟩
    ⟨if p1.x > scene_scale then -scene_scale else p1.x,
     if p1.y > scene_scale then -scene_scale else p1.y,
     if p1.z > scene_scale then -scene_scale else p1.z⟩

/-- The authoritative simulation state: positions and the *current*
velocity buffer (after the ping-pong swap, `dev_vel1`).  The other
velocity buffer is fully overwritten before being read in every step, so
it carries no state across steps. -/
structure BoidState (n : ℕ) where
  pos : Fin n → V3
  vel : Fin n → V3

/-- `Boids::stepSimulationNaive` : brute-force velocity update into
`vel2`, integrate positions with `vel2`, then swap `vel1`/`vel2`. -/
def stepSimulationNaive (n : ℕ) (dt : ℝ) (st : BoidState n) : BoidState n :=
  let vel2 := kernUpdateVelocityBruteForce n st.pos st.vel
  { pos := kernUpdatePos n dt st.pos vel2, vel := vel2 }

def BoidState.inBounds {n : ℕ} (st : BoidState n) : Prop :=
  ∀ i, (st.pos i).inBounds

end

/-! ## Grid geometry (`Boids::initSimulation`, lines 181-197) -/

noncomputable section

/-- `gridCellWidth = cell_width_mul * std::max(std::max(r1, r2), r3)`. -/
def gridCellWidth : ℝ := cell_width_mul * max (max rule1Distance rule2Distance) rule3Distance

/-- `halfSideCount = (int)(scene_scale / gridCellWidth) + 1` (the C cast
truncates; the operand is positive, so truncation is `⌊·⌋`). -/
def halfSideCount : ℤ := ⌊scene_scale / gridCellWidth⌋ + 1

/-- `gridSideCount = 2 * halfSideCount`. -/
def gridSideCount : ℤ := 2 * halfSideCount

/-- `gridCellCount = gridSideCount^3`. -/
def gridCellCount : ℤ := gridSideCount * gridSideCount * gridSideCount

/-- `gridInverseCellWidth = 1.0f / gridCellWidth`. -/
def gridInverseCellWidth : ℝ := 1 / gridCellWidth

/-- `halfGridWidth = gridCellWidth * halfSideCount`. -/
def halfGridWidth : ℝ := gridCellWidth * (halfSideCount : ℝ)

/-- One axis of the `gridMinimum` update in `Boids::initSimulation`:
the source *subtracts* (`gridMinimum.x -= halfGridWidth;`), it does not
assign, so the result depends on the value of the global at entry. -/
def initGridMinimum (entry : ℝ) : ℝ := entry - halfGridWidth

/-- The value each axis of `gridMinimum` holds after the first
`initSimulation` call of a process: `glm::vec3 gridMinimum;` is a
zero-initialized global, so entry value `0`. -/
def gridMinimumValue : ℝ := initGridMinimum 0

/-- `gridMinimum` as a vector (all three axes get the same update). -/
def gridMinV : V3 := ⟨gridMinimumValue, gridMinimumValue, gridMinimumValue⟩

/-- `gridIndex3Dto1D(x, y, z, gridResolution) = x + y*R + z*R*R`. -/
def gridIndex3Dto1D (x y z gridResolution : ℤ) : ℤ :=
  x + y * gridResolution + z * gridResolution * gridResolution

/-- `getGridIndex(position, inverseCellWidth, gridMin)` : per axis,
`(int)std::floor((position - gridMin) * inverseCellWidth)`
(the cast of an integral float value is exact, so this is `⌊·⌋`).
The source also `assert`s `rel_pos ≥ 0` componentwise; the assertion
condition is analysed separately (claim about in-bounds particles). -/
def getGridIndex (position : V3) (inverseCellWidth : ℝ) (gridMin : V3) : I3 :=
  ⟨⌊(position.x - gridMin.x) * inverseCellWidth⌋,
   ⌊(position.y - gridMin.y) * inverseCellWidth⌋,
   ⌊(position.z - gridMin.z) * inverseCellWidth⌋⟩

/-- The grid-cell key `kernComputeIndices` stores in
`gridIndices[index]` : the flattened cell index of the particle. -/
def boidCellIndex (n : ℕ) (st : BoidState n) (i : Fin n) : ℤ :=
  let grid_pos := getGridIndex (st.pos i) gridInverseCellWidth gridMinV
  gridIndex3Dto1D grid_pos.x grid_pos.y grid_pos.z gridSideCount

end

/-! ## Cell range table (`kernResetIntBuffer` + `kernIdentifyCellStartEnd`) -/

/-- `kernIdentifyCellStartEnd(N, particleGridIndices, start, end)` run on
tables that `kernResetIntBuffer` reset to the sentinel `-1`.
Each parallel task `i < N` writes `start[keys i] = i` when `i` begins a
run of equal keys and `end[keys i] = i + 1` when `i` ends one; on a
sorted key array each cell is written at most once per table, so the
sequential fold models the parallel kernel faithfully.  (The reset kernel
touches the `gridCellCount` cells `[0, cellCount)`; the kernels only ever
read indices in that range, so the table is modelled as `-1` everywhere
else as well.) -/
def kernIdentifyCellStartEnd (n : ℕ) (keys : ℕ → ℤ) : (ℤ → ℤ) × (ℤ → ℤ) :=
  (List.range n).foldl
    (fun tbls i =>
      (if i = 0 ∨ keys (i - 1) ≠ keys i
         then Function.update tbls.1 (keys i) (i : ℤ) else tbls.1,
       if i = n - 1 ∨ keys (i + 1) ≠ keys i
         then Function.update tbls.2 (keys i) ((i : ℤ) + 1) else tbls.2))
    (fun _ => -1, fun _ => -1)

/-! ## Neighbour cell enumeration -/

/-- The 27 offsets of the 3×3×3 block, in the loop order of the
27-cell search (`dx` outermost, `dz` innermost). -/
def neighborOffsets : List I3 :=
  [-1, 0, 1].flatMap fun dx =>
    [-1, 0, 1].flatMap fun dy =>
      [-1, 0, 1].map fun dz => (⟨dx, dy, dz⟩ : I3)

/-- `genNeighborCells(boid_pos, grid_pos, gridMin, cellWidth, out)` : the
8-cell variant (`IMPL_8`).  Note the source computes
`grid_center = grid_pos * cellWidth`, which is the cell's *minimum
corner* in grid-local space, not its centre. -/
noncomputable def genNeighborCells (boid_pos : V3) (grid_pos : I3)
    (gridMin : V3) (cellWidth : ℝ) : List I3 :=
  let grid_center : V3 := ⟨(grid_pos.x : ℝ) * cellWidth, (grid_pos.y : ℝ) * cellWidth,
                           (grid_pos.z : ℝ) * cellWidth⟩
  let lp : V3 := boid_pos - gridMin
  let dx : ℤ := if lp.x > grid_center.x then 1 else -1
  let dy : ℤ := if lp.y > grid_center.y then 1 else -1
  let dz : ℤ := if lp.z > grid_center.z then 1 else -1
  [(0 : ℤ), dz].flatMap fun z =>
    [(0 : ℤ), dy].flatMap fun y =>
      [(0 : ℤ), dx].map fun x =>
        (⟨grid_pos.x + x, grid_pos.y + y, grid_pos.z + z⟩ : I3)

/-- The candidate slots one cell of the neighbour loop contributes in
`kernUpdateVelNeighborSearchScattered`/`Coherent` : flatten the cell's 3D
coordinate, and only `if (grid_index >= 0 && grid_index < num_grids)`
iterate its half-open `[start, end)` range of slots (ascending `j`). -/
def gridCellCandidates (n : ℕ) (startTbl endTbl : ℤ → ℤ)
    (num_grids gridResolution : ℤ) (npos : I3) : List (Fin n) :=
  let grid_index := gridIndex3Dto1D npos.x npos.y npos.z gridResolution
  if 0 ≤ grid_index ∧ grid_index < num_grids then
    (List.finRange n).filter
      (fun j => startTbl grid_index ≤ (j : ℤ) ∧ (j : ℤ) < endTbl grid_index)
  else []

noncomputable section

/-- `kernUpdateVelNeighborSearchScattered` (27-cell configuration, the
one compiled: `IMPL_8` is not defined).  The accumulation body is the
same as the brute-force one; candidates are drawn from the ≤27
surrounding cells and dereferenced through `particleArrayIndices`. -/
def kernUpdateVelNeighborSearchScattered (n : ℕ) (gridResolution : ℤ)
    (gridMin : V3) (inverseCellWidth : ℝ)
    (startTbl endTbl : ℤ → ℤ) (particleArrayIndices : Fin n → Fin n)
    (pos vel1 : Fin n → V3) : Fin n → V3 :=
  fun index =>
    let num_grids := gridResolution * gridResolution * gridResolution
    let grid_pos := getGridIndex (pos index) inverseCellWidth gridMin
    let cands :=
      (neighborOffsets.flatMap fun d =>
        gridCellCandidates n startTbl endTbl num_grids gridResolution
          ⟨grid_pos.x + d.x, grid_pos.y + d.y, grid_pos.z + d.z⟩).map
        particleArrayIndices
    clampSpeed (vel1 index + velocityRules pos vel1 index cands)

/-- `kernUpdateVelNeighborSearchCoherent` : identical, but the slot `i`
indexes `pos`/`vel1` directly (one less indirection). -/
def kernUpdateVelNeighborSearchCoherent (n : ℕ) (gridResolution : ℤ)
    (gridMin : V3) (inverseCellWidth : ℝ)
    (startTbl endTbl : ℤ → ℤ) (pos vel1 : Fin n → V3) : Fin n → V3 :=
  fun index =>
    let num_grids := gridResolution * gridResolution * gridResolution
    let grid_pos := getGridIndex (pos index) inverseCellWidth gridMin
    let cands :=
      neighborOffsets.flatMap fun d =>
        gridCellCandidates n startTbl endTbl num_grids gridResolution
          ⟨grid_pos.x + d.x, grid_pos.y + d.y, grid_pos.z + d.z⟩
    clampSpeed (vel1 index + velocityRules pos vel1 index cands)

end

/-! ## Coherent gather/scatter (`kernFillCoherentArrays` /
`kernFillOriginalArrays`), one parallel array at a time (the source
kernel moves `pos` and `vel` in lockstep; the two arrays are
independent). -/

/-- `kernFillCoherentArrays` : `coherent[i] = src[particleArrayIndices[i]]`. -/
def kernFillCoherentArrays {α : Type} (n : ℕ) (particleArrayIndices : Fin n → Fin n)
    (src : Fin n → α) : Fin n → α :=
  fun index => src (particleArrayIndices index)

/-- `kernFillOriginalArrays` : `orig[particleArrayIndices[i]] = coherent[i]`,
a parallel scatter.  When `particleArrayIndices` is a permutation every
destination is written at most once, so the sequential fold of updates
models the parallel kernel faithfully. -/
def kernFillOriginalArrays {α : Type} (n : ℕ) (particleArrayIndices : Fin n → Fin n)
    (orig : Fin n → α) (coherent : Fin n → α) : Fin n → α :=
  (List.finRange n).foldl
    (fun acc index => Function.update acc (particleArrayIndices index) (coherent index))
    orig

/-! ## The grid-based step orchestrators -/

/-- Postcondition of `thrust::sort_by_key(gridIndices, gridIndices + N,
arrayIndices)` : the pair array is permuted by some permutation `σ` of
the slots (the payload slot `s` then holds original index `σ s`, since
`kernComputeIndices` wrote `indices[i] = i`), and the keys are
nondecreasing in slot order.  The sort is unstable, so the steps are
parametrized by an arbitrary such `σ`. -/
def SortsKeys (n : ℕ) (keys : Fin n → ℤ) (σ : Equiv.Perm (Fin n)) : Prop :=
  ∀ s t : Fin n, s ≤ t → keys (σ s) ≤ keys (σ t)

noncomputable section

/-- The sorted key array handed to `kernIdentifyCellStartEnd` (total on
`ℕ`; out-of-range entries are never relevant thanks to the kernel's
short-circuit bounds tests). -/
def sortedKeyArray (n : ℕ) (st : BoidState n) (σ : Equiv.Perm (Fin n)) : ℕ → ℤ :=
  fun s => if h : s < n then boidCellIndex n st (σ ⟨s, h⟩) else 0

/-- `Boids::stepSimulationScatteredGrid` : compute indices, sort by key
(permutation `σ`), reset + build the cell range table, velocity update by
scattered neighbour search, integrate, ping-pong. -/
def stepSimulationScatteredGrid (n : ℕ) (dt : ℝ) (σ : Equiv.Perm (Fin n))
    (st : BoidState n) : BoidState n :=
  let tbls := kernIdentifyCellStartEnd n (sortedKeyArray n st σ)
  let vel2 := kernUpdateVelNeighborSearchScattered n gridSideCount gridMinV
    gridInverseCellWidth tbls.1 tbls.2 (fun s => σ s) st.pos st.vel
  { pos := kernUpdatePos n dt st.pos vel2, vel := vel2 }

/-- `Boids::stepSimulationCoherentGrid` : same index/sort/table phases,
then gather `pos`/`vel1` into coherent order, coherent neighbour search,
integrate the coherent positions, and scatter positions and velocities
back to original order (no ping-pong: the scatter writes `dev_vel1`). -/
def stepSimulationCoherentGrid (n : ℕ) (dt : ℝ) (σ : Equiv.Perm (Fin n))
    (st : BoidState n) : BoidState n :=
  let tbls := kernIdentifyCellStartEnd n (sortedKeyArray n st σ)
  let coherentPos := kernFillCoherentArrays n (fun s => σ s) st.pos
  let coherentVel1 := kernFillCoherentArrays n (fun s => σ s) st.vel
  let coherentVel2 := kernUpdateVelNeighborSearchCoherent n gridSideCount gridMinV
    gridInverseCellWidth tbls.1 tbls.2 coherentPos coherentVel1
  let newCoherentPos := kernUpdatePos n dt coherentPos coherentVel2
  { pos := kernFillOriginalArrays n (fun s => σ s) st.pos newCoherentPos,
    vel := kernFillOriginalArrays n (fun s => σ s) st.vel coherentVel2 }

end

/-! ## Numeric values of the grid geometry -/

theorem gridCellWidth_eq : gridCellWidth = 10 := by
  unfold gridCellWidth cell_width_mul rule1Distance rule2Distance rule3Distance
  norm_num

theorem halfSideCount_eq : halfSideCount = 11 := by
  unfold halfSideCount scene_scale
  rw [gridCellWidth_eq]
  rw [show (100 : ℝ) / 10 = ((10 : ℤ) : ℝ) by norm_num, Int.floor_intCast]
  norm_num

theorem gridSideCount_eq : gridSideCount = 22 := by
  unfold gridSideCount; rw [halfSideCount_eq]; norm_num

theorem gridCellCount_eq : gridCellCount = 10648 := by
  unfold gridCellCount; rw [gridSideCount_eq]; norm_num

theorem gridInverseCellWidth_eq : gridInverseCellWidth = 1 / 10 := by
  unfold gridInverseCellWidth; rw [gridCellWidth_eq]

theorem halfGridWidth_eq : halfGridWidth = 110 := by
  unfold halfGridWidth
  rw [gridCellWidth_eq, halfSideCount_eq]
  norm_num

theorem gridMinimumValue_eq : gridMinimumValue = -110 := by
  unfold gridMinimumValue initGridMinimum
  rw [halfGridWidth_eq]
  norm_num

/-! ## Position integration and wraparound (claim C6) -/

/-- The per-axis wrap the source actually performs: a coordinate below
`-scene_scale` is set to exactly `scene_scale`, then a coordinate above
`scene_scale` is set to exactly `-scene_scale`. -/
noncomputable def wrapAxis (t : ℝ) : ℝ :=
  if t < -scene_scale then scene_scale
  else if t > scene_scale then -scene_scale
  else t

/-- C6 (corrected): `kernUpdatePos` adds `velocity × dt` per axis and then
teleports an out-of-range coordinate to exactly the opposite boundary
(`+scene_scale` ↦ `-scene_scale` and `-scene_scale` ↦ `+scene_scale`),
independently on all three axes; it does not preserve the overshoot
`ε` (no modular offset). -/
theorem c6_updatePos_boundary_teleport (n : ℕ) (dt : ℝ) (pos vel : Fin n → V3)
    (i : Fin n) :
    kernUpdatePos n dt pos vel i =
      ⟨wrapAxis ((pos i).x + dt * (vel i).x),
       wrapAxis ((pos i).y + dt * (vel i).y),
       wrapAxis ((pos i).z + dt * (vel i).z)⟩ ∧
    (∀ t : ℝ, scene_scale < t → wrapAxis t = -scene_scale) ∧
    (∀ t : ℝ, t < -scene_scale → wrapAxis t = scene_scale) := by
  refine ⟨?_, ?_, ?_⟩
  · unfold kernUpdatePos wrapAxis
    have hs : (0 : ℝ) < scene_scale := by norm_num [scene_scale]
    ext <;> simp only [V3.add_x, V3.add_y, V3.add_z, V3.smul_x, V3.smul_y, V3.smul_z] <;>
      split_ifs <;> first | rfl | linarith
  · intro t ht
    unfold wrapAxis
    have hs : (0 : ℝ) < scene_scale := by norm_num [scene_scale]
    rw [if_neg (by linarith), if_pos ht]
  · intro t ht
    unfold wrapAxis
    rw [if_pos ht]

/-- C6 counterexample: a particle at the origin with velocity `(101,0,0)`
and `dt = 1` lands at `scene_scale + 1`; the claim predicts the wrapped
coordinate `-scene_scale + 1 = -99`, but the kernel puts it at exactly
`-100`. -/
theorem c6_counterexample :
    (kernUpdatePos 1 1 (fun _ => ⟨0, 0, 0⟩) (fun _ => ⟨101, 0, 0⟩) 0).x = -100 ∧
    ((-100 : ℝ) ≠ -scene_scale + 1) := by
  constructor
  · unfold kernUpdatePos
    norm_num [scene_scale]
  · norm_num [scene_scale]

/-! ## Grid geometry claims (C7, C10) -/

/-- C10 (confirmed): each call to `initSimulation` *subtracts*
`halfSideCount × cellWidth` from the entry value of `gridMinimum`
instead of assigning it; the documented geometry
`gridMinimum = -halfSideCount × cellWidth` therefore holds iff
`gridMinimum` was zero at entry (as it is on the first initialization of
a process, globals being zero-initialized), and every further
initialization strictly decreases it (a second call yields `-220`). -/
theorem c10_gridMinimum_update_is_subtraction :
    (∀ entry : ℝ, initGridMinimum entry = entry - (halfSideCount : ℝ) * gridCellWidth) ∧
    (∀ entry : ℝ, initGridMinimum entry = -((halfSideCount : ℝ) * gridCellWidth) ↔ entry = 0) ∧
    (∀ entry : ℝ, initGridMinimum entry < entry) ∧
    initGridMinimum (initGridMinimum 0) = -220 := by
  have hw : halfGridWidth = (halfSideCount : ℝ) * gridCellWidth := by
    unfold halfGridWidth; ring
  have h110 : halfGridWidth = 110 := halfGridWidth_eq
  refine ⟨fun entry => by unfold initGridMinimum; rw [hw], fun entry => ?_, fun entry => ?_, ?_⟩
  · unfold initGridMinimum
    rw [← hw]
    constructor <;> intro h <;> linarith
  · unfold initGridMinimum
    rw [h110]; linarith
  · unfold initGridMinimum
    rw [h110]; norm_num

/-- Per-axis cell coordinate of an in-bounds coordinate: with the
first-initialization geometry, `⌊(t - gridMinimum) * (1/cellWidth)⌋`
lies in `[1, 21]` whenever `|t| ≤ scene_scale`. -/
theorem cellCoord_axis_bounds (t : ℝ) (ht : |t| ≤ scene_scale) :
    1 ≤ ⌊(t - gridMinimumValue) * gridInverseCellWidth⌋ ∧
    ⌊(t - gridMinimumValue) * gridInverseCellWidth⌋ ≤ 21 := by
  rw [gridMinimumValue_eq, gridInverseCellWidth_eq]
  rw [abs_le] at ht
  unfold scene_scale at ht
  constructor
  · rw [Int.le_floor]
    push_cast
    nlinarith [ht.1]
  · have : ⌊(t - -110) * (1 / 10)⌋ ≤ ⌊((21 : ℤ) : ℝ)⌋ := by
      apply Int.floor_le_floor
      push_cast
      nlinarith [ht.2]
    rwa [Int.floor_intCast] at this

/-- C7 (confirmed, for the first initialization of a process where
`gridMinimum` is zero at entry): the derived geometry has the documented
values (`cellWidth = 10 = multiplier × max radius`,
`halfSideCount = ⌊S/cellWidth⌋ + 1 = 11`, `sideCount = 22`,
`cellCount = 22³`, `gridMinimum = -halfSideCount × cellWidth = -110`),
and every in-bounds position gets a nonnegative relative position
(the `assert` in `getGridIndex`), per-axis cell coordinates inside
`[0, sideCount)`, and a flattened index inside `[0, cellCount)`
(the `assert` in `kernComputeIndices`). -/
theorem c7_geometry_and_inbounds_mapping (p : V3) (hp : p.inBounds) :
    gridCellWidth = cell_width_mul * max (max rule1Distance rule2Distance) rule3Distance ∧
    gridCellWidth = 10 ∧
    halfSideCount = ⌊scene_scale / gridCellWidth⌋ + 1 ∧
    gridSideCount = 2 * halfSideCount ∧
    gridCellCount = gridSideCount * gridSideCount * gridSideCount ∧
    gridMinimumValue = -((halfSideCount : ℝ) * gridCellWidth) ∧
    (0 ≤ (p.x - gridMinV.x) * gridInverseCellWidth ∧
     0 ≤ (p.y - gridMinV.y) * gridInverseCellWidth ∧
     0 ≤ (p.z - gridMinV.z) * gridInverseCellWidth) ∧
    (0 ≤ (getGridIndex p gridInverseCellWidth gridMinV).x ∧
     (getGridIndex p gridInverseCellWidth gridMinV).x < gridSideCount) ∧
    (0 ≤ (getGridIndex p gridInverseCellWidth gridMinV).y ∧
     (getGridIndex p gridInverseCellWidth gridMinV).y < gridSideCount) ∧
    (0 ≤ (getGridIndex p gridInverseCellWidth gridMinV).z ∧
     (getGridIndex p gridInverseCellWidth gridMinV).z < gridSideCount) ∧
    (0 ≤ gridIndex3Dto1D (getGridIndex p gridInverseCellWidth gridMinV).x
           (getGridIndex p gridInverseCellWidth gridMinV).y
           (getGridIndex p gridInverseCellWidth gridMinV).z gridSideCount ∧
     gridIndex3Dto1D (getGridIndex p gridInverseCellWidth gridMinV).x
       (getGridIndex p gridInverseCellWidth gridMinV).y
       (getGridIndex p gridInverseCellWidth gridMinV).z gridSideCount < gridCellCount) := by
  obtain ⟨hx, hy, hz⟩ := hp
  have bx := cellCoord_axis_bounds p.x hx
  have by' := cellCoord_axis_bounds p.y hy
  have bz := cellCoord_axis_bounds p.z hz
  have hrel : ∀ t : ℝ, |t| ≤ scene_scale → 0 ≤ (t - gridMinV.x) * gridInverseCellWidth := by
    intro t ht
    rw [abs_le] at ht
    unfold scene_scale at ht
    have : gridMinV.x = -110 := by
      show gridMinimumValue = -110
      exact gridMinimumValue_eq
    rw [this, gridInverseCellWidth_eq]
    nlinarith [ht.1]
  have hgx : (getGridIndex p gridInverseCellWidth gridMinV).x
      = ⌊(p.x - gridMinimumValue) * gridInverseCellWidth⌋ := rfl
  have hgy : (getGridIndex p gridInverseCellWidth gridMinV).y
      = ⌊(p.y - gridMinimumValue) * gridInverseCellWidth⌋ := rfl
  have hgz : (getGridIndex p gridInverseCellWidth gridMinV).z
      = ⌊(p.z - gridMinimumValue) * gridInverseCellWidth⌋ := rfl
  have hR : gridSideCount = 22 := gridSideCount_eq
  refine ⟨rfl, gridCellWidth_eq, rfl, rfl, rfl, ?_, ⟨hrel p.x hx, hrel p.y hy, hrel p.z hz⟩,
    ⟨?_, ?_⟩, ⟨?_, ?_⟩, ⟨?_, ?_⟩, ⟨?_, ?_⟩⟩
  · unfold gridMinimumValue initGridMinimum halfGridWidth
    ring
  · rw [hgx]; omega
  · rw [hgx, hR]; omega
  · rw [hgy]; omega
  · rw [hgy, hR]; omega
  · rw [hgz]; omega
  · rw [hgz, hR]; omega
  · unfold gridIndex3Dto1D
    rw [hgx, hgy, hgz, hR]
    omega
  · unfold gridIndex3Dto1D
    rw [hgx, hgy, hgz, hR, gridCellCount_eq]
    omega

/-- Witness for C7 at the origin. -/
theorem c7_witness :
    (⟨0, 0, 0⟩ : V3).inBounds ∧ gridCellWidth = 10 := by
  have h : (⟨0, 0, 0⟩ : V3).inBounds := by
    refine ⟨?_, ?_, ?_⟩ <;> norm_num [scene_scale]
  exact ⟨h, (c7_geometry_and_inbounds_mapping ⟨0, 0, 0⟩ h).2.1⟩

/-! ## Brute-force rule evaluator vs. the specified formula (claim C2) -/

open Classical

/-- The candidate set a rule with radius `ρ` sees, as a finite set. -/
noncomputable def ruleFinset (n : ℕ) (ρ : ℝ) (pos : Fin n → V3) (self : Fin n) :
    Finset (Fin n) :=
  Finset.univ.filter (fun j => j ≠ self ∧ V3.dist (pos j) (pos self) < ρ)

theorem ruleNeighbors_toFinset (n : ℕ) (ρ : ℝ) (pos : Fin n → V3) (self : Fin n) :
    (ruleNeighbors ρ pos self (List.finRange n)).toFinset = ruleFinset n ρ pos self := by
  unfold ruleNeighbors ruleFinset
  rw [List.toFinset_filter, List.toFinset_finRange]
  apply Finset.filter_congr
  intro j _
  simp

theorem ruleNeighbors_nodup (n : ℕ) (ρ : ℝ) (pos : Fin n → V3) (self : Fin n) :
    (ruleNeighbors ρ pos self (List.finRange n)).Nodup :=
  (List.nodup_finRange n).filter _

theorem ruleNeighbors_length_eq (n : ℕ) (ρ : ℝ) (pos : Fin n → V3) (self : Fin n) :
    (ruleNeighbors ρ pos self (List.finRange n)).length = (ruleFinset n ρ pos self).card := by
  rw [← ruleNeighbors_toFinset,
    List.toFinset_card_of_nodup (ruleNeighbors_nodup n ρ pos self)]

theorem ruleNeighbors_sum_eq (n : ℕ) (ρ : ℝ) (pos : Fin n → V3) (self : Fin n)
    (f : Fin n → V3) :
    ((ruleNeighbors ρ pos self (List.finRange n)).map f).sum
      = ∑ c ∈ ruleFinset n ρ pos self, f c := by
  rw [← ruleNeighbors_toFinset,
    List.sum_toFinset f (ruleNeighbors_nodup n ρ pos self)]

/-- Cohesion as the claim words it: the average position of all
candidates `c ≠ p` with `dist(p,c) < r1`, steered toward and scaled by
`rule1Scale`; zero when no such neighbour exists. -/
noncomputable def cohesionSpec (n : ℕ) (pos : Fin n → V3) (p : Fin n) : V3 :=
  let N := Finset.univ.filter (fun c => c ≠ p ∧ V3.dist (pos p) (pos c) < rule1Distance)
  if N.card ≠ 0 then rule1Scale • (((N.card : ℝ)⁻¹ • ∑ c ∈ N, pos c) - pos p) else 0

/-- Separation as the claim words it: the sum of `p.pos - c.pos` over
candidates with `dist(p,c) < r2`, scaled by `rule2Scale`. -/
noncomputable def separationSpec (n : ℕ) (pos : Fin n → V3) (p : Fin n) : V3 :=
  rule2Scale •
    ∑ c ∈ Finset.univ.filter
        (fun c => c ≠ p ∧ V3.dist (pos p) (pos c) < rule2Distance),
      (pos p - pos c)

/-- Alignment as the claim words it: the average velocity of candidates
with `dist(p,c) < r3`, scaled by `rule3Scale`; zero when none. -/
noncomputable def alignmentSpec (n : ℕ) (pos vel : Fin n → V3) (p : Fin n) : V3 :=
  let N := Finset.univ.filter (fun c => c ≠ p ∧ V3.dist (pos p) (pos c) < rule3Distance)
  if N.card ≠ 0 then rule3Scale • ((N.card : ℝ)⁻¹ • ∑ c ∈ N, vel c) else 0

theorem ruleFinset_eq_spec_filter (n : ℕ) (ρ : ℝ) (pos : Fin n → V3) (p : Fin n) :
    Finset.univ.filter (fun c => c ≠ p ∧ V3.dist (pos p) (pos c) < ρ)
      = ruleFinset n ρ pos p := by
  unfold ruleFinset
  apply Finset.filter_congr
  intro c _
  rw [V3.dist_comm]

/-- C2 (confirmed): the brute-force velocity update equals
`clampSpeed (old velocity + cohesion + separation + alignment)` with the
three rules as specified, and the clamp rescales a too-fast velocity to
exactly `maxSpeed` preserving direction (a positive multiple of the raw
velocity) while leaving a velocity within the cap unchanged. -/
theorem c2_bruteforce_velocity_formula (n : ℕ) (pos vel : Fin n → V3) (i : Fin n) :
    kernUpdateVelocityBruteForce n pos vel i =
      clampSpeed (vel i +
        (cohesionSpec n pos i + separationSpec n pos i + alignmentSpec n pos vel i)) ∧
    (∀ v : V3, maxSpeed < V3.length v →
      V3.length (clampSpeed v) = maxSpeed ∧ ∃ t : ℝ, 0 < t ∧ clampSpeed v = t • v) ∧
    (∀ v : V3, V3.length v ≤ maxSpeed → clampSpeed v = v) := by
  refine ⟨?_, ?_, ?_⟩
  · unfold kernUpdateVelocityBruteForce computeVelocityChange velocityRules
    congr 2
    have h1 : cohesionSpec n pos i =
        (if (ruleNeighbors rule1Distance pos i (List.finRange n)).length ≠ 0 then
          rule1Scale •
            ((((ruleNeighbors rule1Distance pos i (List.finRange n)).length : ℝ))⁻¹ •
              ((ruleNeighbors rule1Distance pos i (List.finRange n)).map pos).sum - pos i)
        else ((ruleNeighbors rule1Distance pos i (List.finRange n)).map pos).sum) := by
      unfold cohesionSpec
      rw [ruleFinset_eq_spec_filter, ruleNeighbors_length_eq n rule1Distance pos i,
        ruleNeighbors_sum_eq n rule1Distance pos i pos]
      by_cases hc : (ruleFinset n rule1Distance pos i).card = 0
      · rw [if_neg (by simpa using hc), if_neg (by simpa using hc)]
        rw [Finset.card_eq_zero.mp hc]
        simp
      · rw [if_pos hc, if_pos hc]
    have h2 : separationSpec n pos i =
        rule2Scale •
          ((ruleNeighbors rule2Distance pos i (List.finRange n)).map
            (fun j => pos i - pos j)).sum := by
      unfold separationSpec
      rw [ruleFinset_eq_spec_filter,
        ruleNeighbors_sum_eq n rule2Distance pos i (fun j => pos i - pos j)]
    have h3 : alignmentSpec n pos vel i =
        (if (ruleNeighbors rule3Distance pos i (List.finRange n)).length ≠ 0 then
          rule3Scale •
            ((((ruleNeighbors rule3Distance pos i (List.finRange n)).length : ℝ))⁻¹ •
              ((ruleNeighbors rule3Distance pos i (List.finRange n)).map vel).sum)
        else ((ruleNeighbors rule3Distance pos i (List.finRange n)).map vel).sum) := by
      unfold alignmentSpec
      rw [ruleFinset_eq_spec_filter, ruleNeighbors_length_eq n rule3Distance pos i,
        ruleNeighbors_sum_eq n rule3Distance pos i vel]
      by_cases hc : (ruleFinset n rule3Distance pos i).card = 0
      · rw [if_neg (by simpa using hc), if_neg (by simpa using hc)]
        rw [Finset.card_eq_zero.mp hc]
        simp
      · rw [if_pos hc, if_pos hc]
    rw [h1, h2, h3]
  · intro v hv
    have hpos : (0 : ℝ) < V3.length v := lt_trans (by norm_num [maxSpeed]) hv
    have hne : V3.length v ≠ 0 := ne_of_gt hpos
    have hm : (0 : ℝ) < maxSpeed := by norm_num [maxSpeed]
    have hcl : clampSpeed v = (maxSpeed / V3.length v) • v := by
      unfold clampSpeed
      rw [if_pos hv]
    refine ⟨?_, maxSpeed / V3.length v, div_pos hm hpos, hcl⟩
    rw [hcl, V3.length_smul, abs_of_pos (div_pos hm hpos), div_mul_cancel₀ _ hne]
  · intro v hv
    unfold clampSpeed
    rw [if_neg (not_lt.mpr hv)]

/-- Witness for C2 (the theorem's only hypotheses are inside the clamp
conjuncts): instantiated at a 1-particle system with velocity `(0,0,3)`
— the raw speed is `3 > maxSpeed`, and the clamped velocity has length
exactly `maxSpeed`. -/
theorem c2_witness :
    maxSpeed < V3.length ⟨0, 0, 3⟩ ∧ V3.length (clampSpeed ⟨0, 0, 3⟩) = maxSpeed := by
  have hlen : V3.length ⟨0, 0, 3⟩ = 3 := by
    unfold V3.length
    norm_num
    rw [show (9 : ℝ) = 3 ^ 2 by norm_num, Real.sqrt_sq (by norm_num : (0:ℝ) ≤ 3)]
  have hgt : maxSpeed < V3.length ⟨0, 0, 3⟩ := by
    rw [hlen]; norm_num [maxSpeed]
  exact ⟨hgt,
    ((c2_bruteforce_velocity_formula 1 (fun _ => 0) (fun _ => 0) 0).2.1 ⟨0, 0, 3⟩ hgt).1⟩

/-! ## Coherent-layout round trip (claim C8) -/

/-- Pointwise value of a fold of scatter writes when every write that
targets `j` writes the same value `w`. -/
theorem foldl_update_apply_const {ι κ α : Type} [DecidableEq κ]
    (l : List ι) (f₀ : κ → α) (g : ι → κ) (v : ι → α) (j : κ) (w : α)
    (hw : ∀ i ∈ l, g i = j → v i = w) :
    (l.foldl (fun acc i => Function.update acc (g i) (v i)) f₀) j
      = if ∃ i ∈ l, g i = j then w else f₀ j := by
  induction l generalizing f₀ with
  | nil => simp
  | cons a l ih =>
    rw [List.foldl_cons, ih _ (fun i hi hgi => hw i (List.mem_cons_of_mem a hi) hgi)]
    by_cases hex : ∃ i ∈ l, g i = j
    · rw [if_pos hex, if_pos ⟨hex.choose, List.mem_cons_of_mem a hex.choose_spec.1,
        hex.choose_spec.2⟩]
    · rw [if_neg hex]
      by_cases hga : g a = j
      · rw [Function.update_apply, if_pos hga.symm,
          hw a (List.mem_cons_self a l) hga, if_pos ⟨a, List.mem_cons_self a l, hga⟩]
      · rw [Function.update_apply, if_neg (fun h => hga h.symm),
          if_neg (by
            rintro ⟨i, hi, hgi⟩
            rcases List.mem_cons.mp hi with rfl | hi
            · exact hga hgi
            · exact hex ⟨i, hi, hgi⟩)]

/-- C8 (confirmed): for a permutation `particleArrayIndices`, gathering
positions and velocities into coherent order
(`coherent[i] = orig[idx[i]]`) and immediately scattering them back
(`orig[idx[i]] = coherent[i]`) reconstructs the original arrays exactly. -/
theorem c8_coherent_roundtrip (n : ℕ) (idx : Fin n → Fin n)
    (_hperm : Function.Bijective idx) (pos vel : Fin n → V3) :
    kernFillOriginalArrays n idx pos (kernFillCoherentArrays n idx pos) = pos ∧
    kernFillOriginalArrays n idx vel (kernFillCoherentArrays n idx vel) = vel := by
  have key : ∀ arr : Fin n → V3,
      kernFillOriginalArrays n idx arr (kernFillCoherentArrays n idx arr) = arr := by
    intro arr
    funext j
    unfold kernFillOriginalArrays kernFillCoherentArrays
    rw [foldl_update_apply_const (List.finRange n) arr idx (fun i => arr (idx i)) j (arr j)
      (fun i _ hgi => by simp only []; rw [hgi])]
    split_ifs <;> rfl
  exact ⟨key pos, key vel⟩

/-- Witness for C8: the identity permutation on a 1-particle state. -/
theorem c8_witness :
    Function.Bijective (id : Fin 1 → Fin 1) ∧
    kernFillOriginalArrays 1 id (fun _ => (0 : V3))
      (kernFillCoherentArrays 1 id (fun _ => (0 : V3))) = (fun _ => (0 : V3)) :=
  ⟨Function.bijective_id,
    (c8_coherent_roundtrip 1 id Function.bijective_id (fun _ => 0) (fun _ => 0)).1⟩

/-! ## Initialization allocation failure (claim C9) -/

/-- The `cudaMalloc` calls of `Boids::initSimulation`, in program order,
with the element count each one requests (`dev_pos`, `dev_vel1` and
`dev_vel2` are explicit; the rest go through the `ALLOC` macro).  The
kernel launch between them is not an allocation and is omitted. -/
def initAllocList (N cellCount : ℕ) : List (String × ℕ) :=
  [("dev_pos", N), ("dev_vel1", N), ("dev_vel2", N),
   ("dev_particleArrayIndices", N), ("dev_particleGridIndices", N),
   ("dev_gridCellStartIndices", cellCount), ("dev_gridCellEndIndices", cellCount),
   ("dev_coherentPos", N), ("dev_coherentVel2", N)]

/-- Outcome of the allocation phase of `initSimulation`:
which buffers were acquired before completion or failure, the diagnostic
message of `checkCUDAErrorWithLine` on failure (`"cudaMalloc <name>
failed!"`, which names the buffer but not the requested size), and the
set of buffers freed before `exit(EXIT_FAILURE)` — the source calls
`exit` from `checkCUDAError` without freeing anything. -/
structure InitOutcome where
  acquired : List String
  failedMsg : Option String
  freedBeforeExit : List String
  deriving DecidableEq

/-- Run the allocation sequence of `initSimulation` against an allocation
oracle `allocOk` (which `cudaMalloc` calls succeed): each failure is
detected immediately by the adjacent `checkCUDAErrorWithLine`, which
prints the message and exits; nothing is freed on the failure path. -/
def runInitAllocs (allocOk : String → Bool) (acc : List String) :
    List (String × ℕ) → InitOutcome
  | [] => ⟨acc.reverse, none, []⟩
  | (name, _size) :: rest =>
    if allocOk name then runInitAllocs allocOk (name :: acc) rest
    else ⟨acc.reverse, some ("cudaMalloc " ++ name ++ " failed!"), []⟩

/-- C9 (corrected): on any allocation failure, `initSimulation` frees
nothing before the process exits, and the failure report is
`"cudaMalloc <buffer> failed!"` — it names the failing buffer (a buffer
of the allocation sequence that the oracle rejects) but contains no
size.  The buffers acquired before the failure stay acquired. -/
theorem c9_alloc_failure_behavior (allocOk : String → Bool) (acc : List String)
    (allocs : List (String × ℕ)) :
    (runInitAllocs allocOk acc allocs).freedBeforeExit = [] ∧
    (∀ msg, (runInitAllocs allocOk acc allocs).failedMsg = some msg →
      ∃ name size, (name, size) ∈ allocs ∧ allocOk name = false ∧
        msg = "cudaMalloc " ++ name ++ " failed!") := by
  induction allocs generalizing acc with
  | nil => exact ⟨rfl, by intro msg h; simp [runInitAllocs] at h⟩
  | cons a rest ih =>
    obtain ⟨name, size⟩ := a
    unfold runInitAllocs
    by_cases hok : allocOk name
    · rw [if_pos hok]
      refine ⟨(ih (name :: acc)).1, ?_⟩
      intro msg hmsg
      obtain ⟨nm, sz, hmem, hfail, heq⟩ := (ih (name :: acc)).2 msg hmsg
      exact ⟨nm, sz, List.mem_cons_of_mem _ hmem, hfail, heq⟩
    · rw [if_neg hok]
      refine ⟨rfl, ?_⟩
      intro msg hmsg
      refine ⟨name, size, List.mem_cons_self _ _, by simpa using hok, ?_⟩
      simpa using hmsg.symm

/-- C9 counterexample: run the real allocation sequence (`N = 100`,
`cellCount = 10648`) against an oracle that fails the third allocation
(`dev_vel2`).  `dev_pos` and `dev_vel1` were acquired, yet the freed set
is empty — the claimed all-or-nothing release does not happen — and the
message carries no size. -/
theorem c9_counterexample :
    runInitAllocs (fun s => !(s == "dev_vel2")) [] (initAllocList 100 10648)
      = ⟨["dev_pos", "dev_vel1"], some "cudaMalloc dev_vel2 failed!", []⟩ ∧
    (["dev_pos", "dev_vel1"] : List String) ≠ [] := by
  constructor
  · rfl
  · simp

/-- Witness for C9's theorem at the concrete failing run. -/
theorem c9_witness :
    (runInitAllocs (fun s => !(s == "dev_vel2")) [] (initAllocList 100 10648)).freedBeforeExit
      = [] :=
  (c9_alloc_failure_behavior (fun s => !(s == "dev_vel2")) [] (initAllocList 100 10648)).1

/-! ## 8-cell neighbour enumeration (claim C3) -/

theorem gridMinV_x : gridMinV.x = -110 := gridMinimumValue_eq
theorem gridMinV_y : gridMinV.y = -110 := gridMinimumValue_eq
theorem gridMinV_z : gridMinV.z = -110 := gridMinimumValue_eq

/-- C3 (code bug): `genNeighborCells` compares the boid position with
`grid_pos * cellWidth` — the *minimum corner* of its cell in grid-local
space, not the cell's centre — so the off-centre direction is computed
against the wrong reference point.  Concretely, the boid at
`(-89, -95, -95)` lies in cell `(2,1,1)` and sits off-centre toward the
*negative* x side (its local x, 21, is below the cell-centre local x,
25), yet the kernel selects the `+1` x-neighbours `{2,3}`; the cell
`(1,1,1)` of the true neighbour `(-91, -95, -95)` — which is within the
rule-2 (and rule-1/3) radius, both particles in world bounds — is not in
the returned 8-cell block, although the radii (≤ 5) are at most the cell
width (10). -/
theorem c3_genNeighborCells_misses_true_neighbor :
    getGridIndex ⟨-89, -95, -95⟩ gridInverseCellWidth gridMinV = ⟨2, 1, 1⟩ ∧
    getGridIndex ⟨-91, -95, -95⟩ gridInverseCellWidth gridMinV = ⟨1, 1, 1⟩ ∧
    V3.dist ⟨-91, -95, -95⟩ ⟨-89, -95, -95⟩ < rule2Distance ∧
    (⟨-89, -95, -95⟩ : V3).inBounds ∧ (⟨-91, -95, -95⟩ : V3).inBounds ∧
    ((-89 : ℝ) - gridMinV.x) < ((2 : ℝ) + 1 / 2) * gridCellWidth ∧
    genNeighborCells ⟨-89, -95, -95⟩ ⟨2, 1, 1⟩ gridMinV gridCellWidth =
      [⟨2, 1, 1⟩, ⟨3, 1, 1⟩, ⟨2, 2, 1⟩, ⟨3, 2, 1⟩,
       ⟨2, 1, 2⟩, ⟨3, 1, 2⟩, ⟨2, 2, 2⟩, ⟨3, 2, 2⟩] ∧
    (⟨1, 1, 1⟩ : I3) ∉
      genNeighborCells ⟨-89, -95, -95⟩ ⟨2, 1, 1⟩ gridMinV gridCellWidth := by
  have hlist : genNeighborCells ⟨-89, -95, -95⟩ ⟨2, 1, 1⟩ gridMinV gridCellWidth =
      [⟨2, 1, 1⟩, ⟨3, 1, 1⟩, ⟨2, 2, 1⟩, ⟨3, 2, 1⟩,
       ⟨2, 1, 2⟩, ⟨3, 1, 2⟩, ⟨2, 2, 2⟩, ⟨3, 2, 2⟩] := by
    unfold genNeighborCells
    rw [gridCellWidth_eq]
    simp only [V3.sub_x, V3.sub_y, V3.sub_z, gridMinV_x, gridMinV_y, gridMinV_z]
    norm_num
  refine ⟨?_, ?_, ?_, ?_, ?_, ?_, hlist, ?_⟩
  · unfold getGridIndex
    rw [gridInverseCellWidth_eq]
    simp only [V3.sub_x, V3.sub_y, V3.sub_z, gridMinV_x, gridMinV_y, gridMinV_z]
    ext <;> simp only [] <;> rw [Int.floor_eq_iff] <;> norm_num
  · unfold getGridIndex
    rw [gridInverseCellWidth_eq]
    simp only [V3.sub_x, V3.sub_y, V3.sub_z, gridMinV_x, gridMinV_y, gridMinV_z]
    ext <;> simp only [] <;> rw [Int.floor_eq_iff] <;> norm_num
  · have : V3.dist ⟨-91, -95, -95⟩ ⟨-89, -95, -95⟩ = 2 := by
      unfold V3.dist V3.length
      simp only [V3.sub_x, V3.sub_y, V3.sub_z]
      rw [show ((-91 : ℝ) - -89) ^ 2 + ((-95 : ℝ) - -95) ^ 2 + ((-95 : ℝ) - -95) ^ 2
          = 2 ^ 2 by norm_num]
      exact Real.sqrt_sq (by norm_num)
    rw [this]
    norm_num [rule2Distance]
  · refine ⟨?_, ?_, ?_⟩ <;> norm_num [scene_scale]
  · refine ⟨?_, ?_, ?_⟩ <;> norm_num [scene_scale]
  · rw [gridMinV_x, gridCellWidth_eq]
    norm_num
  · rw [hlist]
    decide

/-! ## Grid-bounds check in the neighbour search (claim C4) -/

/-- C4 (corrected): the amended bounds check.  The neighbour-search
kernels test only the *flattened* index `x + y·R + z·R²` against
`[0, R³)`:
(a) a candidate cell whose 3D coordinates all lie in `[0, R)` always
passes the test (its flattened index is in `[0, R³)`), and its
`[start, end)` range is iterated;
(b) a cell is skipped exactly when the flattened index falls outside
`[0, R³)` — the per-axis coordinates are never checked. -/
theorem c4_flattened_bounds_check (n : ℕ) (S E : ℤ → ℤ) (R : ℤ) (npos : I3) :
    (0 ≤ npos.x → npos.x < R → 0 ≤ npos.y → npos.y < R → 0 ≤ npos.z → npos.z < R →
      (0 ≤ gridIndex3Dto1D npos.x npos.y npos.z R ∧
        gridIndex3Dto1D npos.x npos.y npos.z R < R * R * R) ∧
      gridCellCandidates n S E (R * R * R) R npos =
        (List.finRange n).filter
          (fun (j : Fin n) => S (gridIndex3Dto1D npos.x npos.y npos.z R) ≤ (j : ℤ) ∧
            (j : ℤ) < E (gridIndex3Dto1D npos.x npos.y npos.z R))) ∧
    (¬ (0 ≤ gridIndex3Dto1D npos.x npos.y npos.z R ∧
        gridIndex3Dto1D npos.x npos.y npos.z R < R * R * R) →
      gridCellCandidates n S E (R * R * R) R npos = []) := by
  constructor
  · intro hx0 hxR hy0 hyR hz0 hzR
    have hrange : 0 ≤ gridIndex3Dto1D npos.x npos.y npos.z R ∧
        gridIndex3Dto1D npos.x npos.y npos.z R < R * R * R := by
      unfold gridIndex3Dto1D
      have hR1 : 1 ≤ R := by omega
      have h1 : npos.y * R ≤ (R - 1) * R :=
        mul_le_mul_of_nonneg_right (by omega) (by omega)
      have h2 : npos.z * R * R ≤ (R - 1) * R * R := by
        apply mul_le_mul_of_nonneg_right _ (by omega)
        exact mul_le_mul_of_nonneg_right (by omega) (by omega)
      constructor
      · have hy' : 0 ≤ npos.y * R := mul_nonneg hy0 (by omega)
        have hz' : 0 ≤ npos.z * R * R := mul_nonneg (mul_nonneg hz0 (by omega)) (by omega)
        omega
      · nlinarith
    refine ⟨hrange, ?_⟩
    unfold gridCellCandidates
    rw [if_pos hrange]
  · intro hout
    unfold gridCellCandidates
    rw [if_neg hout]

/-- Witness for C4's amended theorem: cell `(0,0,0)` of the real grid
(`R = 22`), with sentinel tables. -/
theorem c4_witness :
    (0 : ℤ) ≤ 0 ∧
    (0 ≤ gridIndex3Dto1D 0 0 0 22 ∧ gridIndex3Dto1D 0 0 0 22 < 22 * 22 * 22) := by
  refine ⟨le_refl 0, ?_⟩
  exact (((c4_flattened_bounds_check 1 (fun _ => -1) (fun _ => -1) 22 ⟨0, 0, 0⟩).1
    (by norm_num) (by norm_num) (by norm_num) (by norm_num) (by norm_num) (by norm_num))).1

/-- C4 counterexample: the cell `(-1, 1, 0)` is outside the grid on the
x axis, yet with `R = 22` its flattened index is `21 ∈ [0, 22³)`, so the
kernel does *not* skip it: it reads the `[start,end)` range of 1D cell
`21` and enumerates the particle stored there (slot `0`). -/
theorem c4_counterexample :
    gridCellCandidates 1 (fun c => if c = 21 then 0 else -1)
        (fun c => if c = 21 then 1 else -1) (22 * 22 * 22) 22 ⟨-1, 1, 0⟩ = [0] ∧
    (-1 : ℤ) < 0 := by
  constructor
  · decide
  · decide

/-! ## Correctness of the cell range table (claim C5) -/

/-- The first `n` entries of the key array are sorted (postcondition of
`thrust::sort_by_key`). -/
def SortedBelow (n : ℕ) (keys : ℕ → ℤ) : Prop :=
  ∀ i j : ℕ, i ≤ j → j < n → keys i ≤ keys j

/-- Extract the pointwise scalar fold of the `start` table from the pair
fold of `kernIdentifyCellStartEnd`. -/
theorem foldl_pair_update_fst (keys : ℕ → ℤ) (p q : ℕ → Prop)
    [DecidablePred p] [DecidablePred q] (f g : ℕ → ℤ)
    (c : ℤ) (l : List ℕ) (t : (ℤ → ℤ) × (ℤ → ℤ)) :
    ((l.foldl (fun tbls i =>
        (if p i then Function.update tbls.1 (keys i) (f i) else tbls.1,
         if q i then Function.update tbls.2 (keys i) (g i) else tbls.2)) t).1) c
      = l.foldl (fun v i => if p i ∧ keys i = c then f i else v) (t.1 c) := by
  induction l generalizing t with
  | nil => rfl
  | cons a l ih =>
    rw [List.foldl_cons, List.foldl_cons, ih]
    congr 1
    by_cases hpa : p a <;> by_cases hka : keys a = c <;>
      simp [hpa, hka, Function.update_apply] <;>
      exact fun h => absurd h.symm hka

/-- Same for the `end` table. -/
theorem foldl_pair_update_snd (keys : ℕ → ℤ) (p q : ℕ → Prop)
    [DecidablePred p] [DecidablePred q] (f g : ℕ → ℤ)
    (c : ℤ) (l : List ℕ) (t : (ℤ → ℤ) × (ℤ → ℤ)) :
    ((l.foldl (fun tbls i =>
        (if p i then Function.update tbls.1 (keys i) (f i) else tbls.1,
         if q i then Function.update tbls.2 (keys i) (g i) else tbls.2)) t).2) c
      = l.foldl (fun v i => if q i ∧ keys i = c then g i else v) (t.2 c) := by
  induction l generalizing t with
  | nil => rfl
  | cons a l ih =>
    rw [List.foldl_cons, List.foldl_cons, ih]
    congr 1
    by_cases hqa : q a <;> by_cases hka : keys a = c <;>
      simp [hqa, hka, Function.update_apply] <;>
      exact fun h => absurd h.symm hka

/-- A conditional-write scalar fold whose condition never fires keeps its
initial value. -/
theorem foldl_if_none (P : ℕ → Prop) [DecidablePred P] (f : ℕ → ℤ) (l : List ℕ)
    (init : ℤ) (h : ∀ i ∈ l, ¬ P i) :
    l.foldl (fun v i => if P i then f i else v) init = init := by
  induction l generalizing init with
  | nil => rfl
  | cons a l ih =>
    rw [List.foldl_cons, if_neg (h a (List.mem_cons_self a l))]
    exact ih init (fun i hi => h i (List.mem_cons_of_mem a hi))

/-- A conditional-write scalar fold all of whose fired writes store the
value `w`, started at `w`, ends at `w`. -/
theorem foldl_if_const (P : ℕ → Prop) [DecidablePred P] (f : ℕ → ℤ) (l : List ℕ)
    (w : ℤ) (h : ∀ i ∈ l, P i → f i = w) :
    l.foldl (fun v i => if P i then f i else v) w = w := by
  induction l with
  | nil => rfl
  | cons a l ih =>
    rw [List.foldl_cons]
    by_cases hpa : P a
    · rw [if_pos hpa, h a (List.mem_cons_self a l) hpa]
      exact ih (fun i hi hp => h i (List.mem_cons_of_mem a hi) hp)
    · rw [if_neg hpa]
      exact ih (fun i hi hp => h i (List.mem_cons_of_mem a hi) hp)

/-- A conditional-write scalar fold whose condition fires for exactly one
element of the list ends at that element's value. -/
theorem foldl_if_unique (P : ℕ → Prop) [DecidablePred P] (f : ℕ → ℤ) (i₀ : ℕ)
    (hP : P i₀) :
    ∀ (l : List ℕ) (init : ℤ), i₀ ∈ l → (∀ i ∈ l, P i → i = i₀) →
      l.foldl (fun v i => if P i then f i else v) init = f i₀ := by
  intro l
  induction l with
  | nil => intro init hmem _; exact absurd hmem (List.not_mem_nil i₀)
  | cons a l ih =>
    intro init hmem huniq
    rw [List.foldl_cons]
    by_cases hpa : P a
    · have ha : a = i₀ := huniq a (List.mem_cons_self a l) hpa
      rw [if_pos hpa, ha]
      exact foldl_if_const P f l (f i₀)
        (fun i hi hp => by rw [huniq i (List.mem_cons_of_mem a hi) hp])
    · rw [if_neg hpa]
      have hi₀ : i₀ ∈ l := by
        rcases List.mem_cons.mp hmem with rfl | h
        · exact absurd hP hpa
        · exact h
      exact ih _ hi₀ (fun i hi hp => huniq i (List.mem_cons_of_mem a hi) hp)

/-- The occupied slots of cell `c`. -/
noncomputable def cellSlots (n : ℕ) (keys : ℕ → ℤ) (c : ℤ) : Finset ℕ :=
  (Finset.range n).filter (fun i => keys i = c)

theorem cellSlots_nonempty (n : ℕ) (keys : ℕ → ℤ) (c : ℤ)
    (h : ∃ i, i < n ∧ keys i = c) : (cellSlots n keys c).Nonempty := by
  obtain ⟨i, hi, hk⟩ := h
  exact ⟨i, Finset.mem_filter.mpr ⟨Finset.mem_range.mpr hi, hk⟩⟩

/-- The write condition of the `start` table fires, among the slots of
cell `c`, exactly at the first one. -/
theorem cellSlots_mem_iff (n : ℕ) (keys : ℕ → ℤ) (c : ℤ) (i : ℕ) :
    i ∈ cellSlots n keys c ↔ i < n ∧ keys i = c := by
  simp [cellSlots, Finset.mem_filter, Finset.mem_range]

theorem start_write_iff (n : ℕ) (keys : ℕ → ℤ) (hs : SortedBelow n keys) (c : ℤ)
    (h : ∃ i, i < n ∧ keys i = c) (i : ℕ) (hi : i < n) (hk : keys i = c) :
    ((i = 0 ∨ keys (i - 1) ≠ keys i) ↔
      i = (cellSlots n keys c).min' (cellSlots_nonempty n keys c h)) := by
  set a := (cellSlots n keys c).min' (cellSlots_nonempty n keys c h) with ha
  have hamem : a < n ∧ keys a = c := by
    rw [← cellSlots_mem_iff n keys c a, ha]
    exact (cellSlots n keys c).min'_mem (cellSlots_nonempty n keys c h)
  have hmin : ∀ j, j < n → keys j = c → a ≤ j := by
    intro j hj hkj
    rw [ha]
    exact Finset.min'_le _ j ((cellSlots_mem_iff n keys c j).mpr ⟨hj, hkj⟩)
  constructor
  · intro hcond
    by_contra hne
    have hai : a < i := lt_of_le_of_ne (hmin i hi hk) (fun h' => hne h'.symm)
    have h0 : i ≠ 0 := by omega
    have hkey : keys (i - 1) = keys i := by
      have h1 : keys a ≤ keys (i - 1) := hs a (i - 1) (by omega) (by omega)
      have h2 : keys (i - 1) ≤ keys i := hs (i - 1) i (by omega) hi
      have h3 : keys a = keys i := by rw [hamem.2, hk]
      omega
    rcases hcond with h' | h'
    · exact h0 h'
    · exact h' hkey
  · rintro rfl
    by_cases h0 : a = 0
    · exact Or.inl h0
    · refine Or.inr (fun hkey => ?_)
      have : a ≤ a - 1 := hmin (a - 1) (by omega) (by rw [hkey, hamem.2])
      omega

/-- The write condition of the `end` table fires, among the slots of cell
`c`, exactly at the last one. -/
theorem end_write_iff (n : ℕ) (keys : ℕ → ℤ) (hs : SortedBelow n keys) (c : ℤ)
    (h : ∃ i, i < n ∧ keys i = c) (i : ℕ) (hi : i < n) (hk : keys i = c) :
    ((i = n - 1 ∨ keys (i + 1) ≠ keys i) ↔
      i = (cellSlots n keys c).max' (cellSlots_nonempty n keys c h)) := by
  set b := (cellSlots n keys c).max' (cellSlots_nonempty n keys c h) with hb
  have hbmem : b < n ∧ keys b = c := by
    rw [← cellSlots_mem_iff n keys c b, hb]
    exact (cellSlots n keys c).max'_mem (cellSlots_nonempty n keys c h)
  have hmax : ∀ j, j < n → keys j = c → j ≤ b := by
    intro j hj hkj
    rw [hb]
    exact Finset.le_max' _ j ((cellSlots_mem_iff n keys c j).mpr ⟨hj, hkj⟩)
  constructor
  · intro hcond
    by_contra hne
    have hib : i < b := lt_of_le_of_ne (hmax i hi hk) hne
    have hbn : b < n := hbmem.1
    have hlast : i ≠ n - 1 := by omega
    have hkey : keys (i + 1) = keys i := by
      have h1 : keys i ≤ keys (i + 1) := hs i (i + 1) (by omega) (by omega)
      have h2 : keys (i + 1) ≤ keys b := hs (i + 1) b (by omega) hbn
      have h3 : keys b = keys i := by rw [hbmem.2, hk]
      omega
    rcases hcond with h' | h'
    · exact hlast h'
    · exact h' hkey
  · rintro rfl
    by_cases hlast : b = n - 1
    · exact Or.inl hlast
    · refine Or.inr (fun hkey => ?_)
      have hb1 : b + 1 ≤ b := hmax (b + 1) (by omega) (by rw [hkey, hbmem.2])
      omega

theorem kernIdentify_fst_eq (n : ℕ) (keys : ℕ → ℤ) (c : ℤ) :
    (kernIdentifyCellStartEnd n keys).1 c
      = (List.range n).foldl
          (fun v i => if (i = 0 ∨ keys (i - 1) ≠ keys i) ∧ keys i = c then (i : ℤ) else v)
          (-1) :=
  foldl_pair_update_fst keys (fun i => i = 0 ∨ keys (i - 1) ≠ keys i)
    (fun i => i = n - 1 ∨ keys (i + 1) ≠ keys i)
    (fun i => (i : ℤ)) (fun i => (i : ℤ) + 1) c (List.range n) (fun _ => -1, fun _ => -1)

theorem kernIdentify_snd_eq (n : ℕ) (keys : ℕ → ℤ) (c : ℤ) :
    (kernIdentifyCellStartEnd n keys).2 c
      = (List.range n).foldl
          (fun v i =>
            if (i = n - 1 ∨ keys (i + 1) ≠ keys i) ∧ keys i = c then (i : ℤ) + 1 else v)
          (-1) :=
  foldl_pair_update_snd keys (fun i => i = 0 ∨ keys (i - 1) ≠ keys i)
    (fun i => i = n - 1 ∨ keys (i + 1) ≠ keys i)
    (fun i => (i : ℤ)) (fun i => (i : ℤ) + 1) c (List.range n) (fun _ => -1, fun _ => -1)

/-- On a sorted key array, `start[c]` of an occupied cell `c` is the
first slot of `c`'s run. -/
theorem cellStart_occupied (n : ℕ) (keys : ℕ → ℤ) (hs : SortedBelow n keys) (c : ℤ)
    (h : ∃ i, i < n ∧ keys i = c) :
    (kernIdentifyCellStartEnd n keys).1 c
      = ((cellSlots n keys c).min' (cellSlots_nonempty n keys c h) : ℤ) := by
  rw [kernIdentify_fst_eq]
  set a := (cellSlots n keys c).min' (cellSlots_nonempty n keys c h) with ha
  have hamem : a < n ∧ keys a = c := by
    rw [← cellSlots_mem_iff n keys c a, ha]
    exact (cellSlots n keys c).min'_mem (cellSlots_nonempty n keys c h)
  exact foldl_if_unique (fun i => (i = 0 ∨ keys (i - 1) ≠ keys i) ∧ keys i = c)
    (fun i => (i : ℤ)) a
    ⟨(start_write_iff n keys hs c h a hamem.1 hamem.2).mpr rfl, hamem.2⟩
    (List.range n) (-1) (List.mem_range.mpr hamem.1)
    (fun i hi hp =>
      (start_write_iff n keys hs c h i (List.mem_range.mp hi) hp.2).mp hp.1)

/-- On a sorted key array, `end[c]` of an occupied cell `c` is one past
the last slot of `c`'s run. -/
theorem cellEnd_occupied (n : ℕ) (keys : ℕ → ℤ) (hs : SortedBelow n keys) (c : ℤ)
    (h : ∃ i, i < n ∧ keys i = c) :
    (kernIdentifyCellStartEnd n keys).2 c
      = ((cellSlots n keys c).max' (cellSlots_nonempty n keys c h) : ℤ) + 1 := by
  rw [kernIdentify_snd_eq]
  set b := (cellSlots n keys c).max' (cellSlots_nonempty n keys c h) with hb
  have hbmem : b < n ∧ keys b = c := by
    rw [← cellSlots_mem_iff n keys c b, hb]
    exact (cellSlots n keys c).max'_mem (cellSlots_nonempty n keys c h)
  exact foldl_if_unique (fun i => (i = n - 1 ∨ keys (i + 1) ≠ keys i) ∧ keys i = c)
    (fun i => (i : ℤ) + 1) b
    ⟨(end_write_iff n keys hs c h b hbmem.1 hbmem.2).mpr rfl, hbmem.2⟩
    (List.range n) (-1) (List.mem_range.mpr hbmem.1)
    (fun i hi hp =>
      (end_write_iff n keys hs c h i (List.mem_range.mp hi) hp.2).mp hp.1)

/-- An unoccupied cell keeps the reset sentinel `-1` in both tables. -/
theorem cellTables_empty (n : ℕ) (keys : ℕ → ℤ) (c : ℤ)
    (h : ∀ i, i < n → keys i ≠ c) :
    (kernIdentifyCellStartEnd n keys).1 c = -1 ∧
    (kernIdentifyCellStartEnd n keys).2 c = -1 := by
  constructor
  · rw [kernIdentify_fst_eq]
    exact foldl_if_none _ _ _ _
      (fun i hi hp => h i (List.mem_range.mp hi) hp.2)
  · rw [kernIdentify_snd_eq]
    exact foldl_if_none _ _ _ _
      (fun i hi hp => h i (List.mem_range.mp hi) hp.2)

/-- The half-open range `[start c, end c)` of a sorted key array holds
exactly the slots whose key is `c` (for slots `< n`). -/
theorem cellRange_mem_iff (n : ℕ) (keys : ℕ → ℤ) (hs : SortedBelow n keys) (c : ℤ)
    (j : ℕ) (hj : j < n) :
    ((kernIdentifyCellStartEnd n keys).1 c ≤ (j : ℤ) ∧
      (j : ℤ) < (kernIdentifyCellStartEnd n keys).2 c) ↔ keys j = c := by
  by_cases h : ∃ i, i < n ∧ keys i = c
  · rw [cellStart_occupied n keys hs c h, cellEnd_occupied n keys hs c h]
    set a := (cellSlots n keys c).min' (cellSlots_nonempty n keys c h) with ha
    set b := (cellSlots n keys c).max' (cellSlots_nonempty n keys c h) with hb
    have hamem : a < n ∧ keys a = c := by
      rw [← cellSlots_mem_iff n keys c a, ha]
      exact (cellSlots n keys c).min'_mem (cellSlots_nonempty n keys c h)
    have hbmem : b < n ∧ keys b = c := by
      rw [← cellSlots_mem_iff n keys c b, hb]
      exact (cellSlots n keys c).max'_mem (cellSlots_nonempty n keys c h)
    constructor
    · rintro ⟨h1, h2⟩
      have haj : a ≤ j := by exact_mod_cast h1
      have hjb : j ≤ b := by omega
      have k1 : keys a ≤ keys j := hs a j haj hj
      have k2 : keys j ≤ keys b := hs j b hjb hbmem.1
      have k3 : keys a = c := hamem.2
      have k4 : keys b = c := hbmem.2
      omega
    · intro hkj
      have haj : a ≤ j := by
        rw [ha]
        exact Finset.min'_le _ j ((cellSlots_mem_iff n keys c j).mpr ⟨hj, hkj⟩)
      have hjb : j ≤ b := by
        rw [hb]
        exact Finset.le_max' _ j ((cellSlots_mem_iff n keys c j).mpr ⟨hj, hkj⟩)
      constructor
      · exact_mod_cast haj
      · push_cast
        omega
  · push_neg at h
    obtain ⟨h1, h2⟩ := cellTables_empty n keys c h
    rw [h1, h2]
    constructor
    · rintro ⟨_, hlt⟩
      exfalso
      omega
    · intro hkj
      exact absurd hkj (h j hj)

/-- C5 (confirmed): after both tables are reset to the sentinel `-1`,
the boundary-detection kernel on a sorted cell-index array leaves, for
every occupied cell `c`, `start[c] =` the first sorted position of `c`'s
run and `end[c] =` one past its last position (the run being exactly the
slots whose key is `c`), while every unoccupied cell keeps the sentinel
in both tables. -/
theorem c5_cell_range_table (n : ℕ) (keys : ℕ → ℤ) (hs : SortedBelow n keys) (c : ℤ) :
    ((∃ i, i < n ∧ keys i = c) →
      ∃ a b : ℕ, a ≤ b ∧ b < n ∧ keys a = c ∧ keys b = c ∧
        (kernIdentifyCellStartEnd n keys).1 c = (a : ℤ) ∧
        (kernIdentifyCellStartEnd n keys).2 c = (b : ℤ) + 1 ∧
        (∀ j, j < a → keys j ≠ c) ∧
        (∀ j, b < j → j < n → keys j ≠ c) ∧
        (∀ j, j < n → (keys j = c ↔ a ≤ j ∧ j ≤ b))) ∧
    ((∀ i, i < n → keys i ≠ c) →
      (kernIdentifyCellStartEnd n keys).1 c = -1 ∧
      (kernIdentifyCellStartEnd n keys).2 c = -1) := by
  constructor
  · intro h
    set a := (cellSlots n keys c).min' (cellSlots_nonempty n keys c h) with ha
    set b := (cellSlots n keys c).max' (cellSlots_nonempty n keys c h) with hb
    have hamem : a < n ∧ keys a = c := by
      rw [← cellSlots_mem_iff n keys c a, ha]
      exact (cellSlots n keys c).min'_mem (cellSlots_nonempty n keys c h)
    have hbmem : b < n ∧ keys b = c := by
      rw [← cellSlots_mem_iff n keys c b, hb]
      exact (cellSlots n keys c).max'_mem (cellSlots_nonempty n keys c h)
    have hmin : ∀ j, j < n → keys j = c → a ≤ j := by
      intro j hj hkj
      rw [ha]
      exact Finset.min'_le _ j ((cellSlots_mem_iff n keys c j).mpr ⟨hj, hkj⟩)
    have hmax : ∀ j, j < n → keys j = c → j ≤ b := by
      intro j hj hkj
      rw [hb]
      exact Finset.le_max' _ j ((cellSlots_mem_iff n keys c j).mpr ⟨hj, hkj⟩)
    refine ⟨a, b, hmin b hbmem.1 hbmem.2, hbmem.1, hamem.2, hbmem.2,
      cellStart_occupied n keys hs c h, cellEnd_occupied n keys hs c h, ?_, ?_, ?_⟩
    · intro j hja hkj
      have := hmin j (by omega) hkj
      omega
    · intro j hbj hjn hkj
      have := hmax j hjn hkj
      omega
    · intro j hj
      constructor
      · intro hkj
        exact ⟨hmin j hj hkj, hmax j hj hkj⟩
      · rintro ⟨haj, hjb⟩
        have k1 : keys a ≤ keys j := hs a j haj hj
        have k2 : keys j ≤ keys b := hs j b hjb hbmem.1
        have k3 : keys a = c := hamem.2
        have k4 : keys b = c := hbmem.2
        omega
  · exact cellTables_empty n keys c

/-- The synthetic sorted cell-index array `{4,4,5,9,9}` of the spec's
round-trip test (and of `Boids::unitTest`). -/
def exKeys : ℕ → ℤ := fun i => [4, 4, 5, 9, 9].getD i 0

/-- Witness for C5 on the `{4,4,5,9,9}` example over 10 cells:
start/end are `{4 ↦ [0,2), 5 ↦ [2,3), 9 ↦ [3,5)}` and every other cell
keeps the sentinel `-1` in both tables. -/
theorem c5_witness :
    SortedBelow 5 exKeys ∧
    (kernIdentifyCellStartEnd 5 exKeys).1 4 = 0 ∧
    (kernIdentifyCellStartEnd 5 exKeys).2 4 = 2 ∧
    (kernIdentifyCellStartEnd 5 exKeys).1 5 = 2 ∧
    (kernIdentifyCellStartEnd 5 exKeys).2 5 = 3 ∧
    (kernIdentifyCellStartEnd 5 exKeys).1 9 = 3 ∧
    (kernIdentifyCellStartEnd 5 exKeys).2 9 = 5 ∧
    (∀ c ∈ ([0, 1, 2, 3, 6, 7, 8] : List ℤ),
      (kernIdentifyCellStartEnd 5 exKeys).1 c = -1 ∧
      (kernIdentifyCellStartEnd 5 exKeys).2 c = -1) := by
  have hs : SortedBelow 5 exKeys := by
    intro i j hij hj
    interval_cases j <;> interval_cases i <;> decide
  refine ⟨hs, by decide, by decide, by decide, by decide, by decide, by decide, ?_⟩
  intro c hc
  fin_cases hc <;>
    exact (c5_cell_range_table 5 exKeys hs _).2 (by decide)

/-! ## Claim C1: equivalence of the three step strategies.
First, invariance properties of the shared accumulation loop. -/

/-- The accumulation loop is order-independent: permuting the candidate
list does not change the result (exact arithmetic; this is the
"up to floating-point summation-order differences" allowance). -/
theorem velocityRules_perm {ι : Type} (pos vel : ι → V3) (self : ι)
    {l₁ l₂ : List ι} (h : l₁.Perm l₂) :
    velocityRules pos vel self l₁ = velocityRules pos vel self l₂ := by
  unfold velocityRules
  have p1 : (ruleNeighbors rule1Distance pos self l₁).Perm
      (ruleNeighbors rule1Distance pos self l₂) := h.filter _
  have p2 : (ruleNeighbors rule2Distance pos self l₁).Perm
      (ruleNeighbors rule2Distance pos self l₂) := h.filter _
  have p3 : (ruleNeighbors rule3Distance pos self l₁).Perm
      (ruleNeighbors rule3Distance pos self l₂) := h.filter _
  rw [p1.length_eq, p3.length_eq, (p1.map pos).sum_eq,
    (p2.map (fun j => pos self - pos j)).sum_eq, (p3.map vel).sum_eq]

/-- Reindexing the accumulation along an injective map: evaluating with
composed data at `self` over `cands` equals evaluating with the original
data at `g self` over the mapped candidates. -/
theorem ruleNeighbors_map_inj {ι κ : Type} (ρ : ℝ) (g : ι → κ)
    (hg : Function.Injective g) (pos : κ → V3) (self : ι) (cands : List ι) :
    ruleNeighbors ρ pos (g self) (cands.map g)
      = (ruleNeighbors ρ (fun j => pos (g j)) self cands).map g := by
  unfold ruleNeighbors
  rw [List.map_filter]
  congr 1
  apply List.filter_congr
  intro j _
  simp only [Function.comp_apply]
  apply decide_eq_decide.mpr
  constructor
  · rintro ⟨hne, hd⟩
    exact ⟨fun h' => hne (by rw [h']), hd⟩
  · rintro ⟨hne, hd⟩
    exact ⟨fun h' => hne (hg h'), hd⟩

theorem velocityRules_map_inj {ι κ : Type} (g : ι → κ) (hg : Function.Injective g)
    (pos vel : κ → V3) (self : ι) (cands : List ι) :
    velocityRules pos vel (g self) (cands.map g)
      = velocityRules (fun j => pos (g j)) (fun j => vel (g j)) self cands := by
  unfold velocityRules
  rw [ruleNeighbors_map_inj rule1Distance g hg pos self cands,
    ruleNeighbors_map_inj rule2Distance g hg pos self cands,
    ruleNeighbors_map_inj rule3Distance g hg pos self cands,
    List.length_map, List.length_map, List.map_map, List.map_map, List.map_map]
  rfl

/-! ### Sorted key array facts -/

theorem sortedKeyArray_val (n : ℕ) (st : BoidState n) (σ : Equiv.Perm (Fin n))
    (s : Fin n) : sortedKeyArray n st σ s.val = boidCellIndex n st (σ s) := by
  unfold sortedKeyArray
  rw [dif_pos s.isLt]

theorem sortedKeyArray_sortedBelow (n : ℕ) (st : BoidState n) (σ : Equiv.Perm (Fin n))
    (hσ : SortsKeys n (boidCellIndex n st) σ) :
    SortedBelow n (sortedKeyArray n st σ) := by
  intro i j hij hj
  have hi : i < n := lt_of_le_of_lt hij hj
  unfold sortedKeyArray
  rw [dif_pos hi, dif_pos hj]
  exact hσ ⟨i, hi⟩ ⟨j, hj⟩ hij

/-! ### Cell coordinate and cell index bounds for in-bounds states -/

theorem getGridIndex_bounds (p : V3) (hp : p.inBounds) :
    (1 ≤ (getGridIndex p gridInverseCellWidth gridMinV).x ∧
      (getGridIndex p gridInverseCellWidth gridMinV).x ≤ 21) ∧
    (1 ≤ (getGridIndex p gridInverseCellWidth gridMinV).y ∧
      (getGridIndex p gridInverseCellWidth gridMinV).y ≤ 21) ∧
    (1 ≤ (getGridIndex p gridInverseCellWidth gridMinV).z ∧
      (getGridIndex p gridInverseCellWidth gridMinV).z ≤ 21) := by
  obtain ⟨hx, hy, hz⟩ := hp
  exact ⟨cellCoord_axis_bounds p.x hx, cellCoord_axis_bounds p.y hy,
    cellCoord_axis_bounds p.z hz⟩

theorem boidCellIndex_range (n : ℕ) (st : BoidState n) (hb : st.inBounds) (i : Fin n) :
    0 ≤ boidCellIndex n st i ∧
    boidCellIndex n st i < gridSideCount * gridSideCount * gridSideCount := by
  obtain ⟨⟨hx1, hx2⟩, ⟨hy1, hy2⟩, ⟨hz1, hz2⟩⟩ := getGridIndex_bounds (st.pos i) (hb i)
  simp only [boidCellIndex, gridIndex3Dto1D]
  rw [gridSideCount_eq] at *
  omega

/-! ### The 27 neighbour offsets -/

theorem neighborOffsets_nodup : neighborOffsets.Nodup := by decide

theorem mem_neighborOffsets_iff (d : I3) :
    d ∈ neighborOffsets ↔
      (d.x = -1 ∨ d.x = 0 ∨ d.x = 1) ∧ (d.y = -1 ∨ d.y = 0 ∨ d.y = 1) ∧
      (d.z = -1 ∨ d.z = 0 ∨ d.z = 1) := by
  obtain ⟨dx, dy, dz⟩ := d
  unfold neighborOffsets
  simp only [List.mem_flatMap, List.mem_map, List.mem_cons, List.mem_singleton,
    List.not_mem_nil, or_false, I3.mk.injEq]
  constructor
  · rintro ⟨a, ha, b, hb, c, hc, rfl, rfl, rfl⟩
    exact ⟨ha, hb, hc⟩
  · rintro ⟨ha, hb, hc⟩
    exact ⟨dx, ha, dy, hb, dz, hc, rfl, rfl, rfl⟩

/-- The flattened indices of the 27 cells around any centre are pairwise
distinct (for the real grid resolution). -/
theorem flats_nodup (gp : I3) :
    (neighborOffsets.map (fun d =>
      gridIndex3Dto1D (gp.x + d.x) (gp.y + d.y) (gp.z + d.z) gridSideCount)).Nodup := by
  apply List.Nodup.map_on ?_ neighborOffsets_nodup
  intro d1 h1 d2 h2 heq
  obtain ⟨hx1, hy1, hz1⟩ := (mem_neighborOffsets_iff d1).mp h1
  obtain ⟨hx2, hy2, hz2⟩ := (mem_neighborOffsets_iff d2).mp h2
  unfold gridIndex3Dto1D at heq
  rw [gridSideCount_eq] at heq
  ext <;> omega

/-! ### Per-cell candidate runs -/

/-- With correct tables (sorted keys) and all keys inside `[0, R³)`, the
candidates one cell contributes are exactly the slots whose key is that
cell's flattened index — whether or not the flattened index passes the
kernel's range check. -/
theorem gridCellCandidates_eq_run (n : ℕ) (keys : ℕ → ℤ) (hs : SortedBelow n keys)
    (hkr : ∀ j : Fin n, 0 ≤ keys j.val ∧
      keys j.val < gridSideCount * gridSideCount * gridSideCount)
    (npos : I3) :
    gridCellCandidates n (kernIdentifyCellStartEnd n keys).1
        (kernIdentifyCellStartEnd n keys).2
        (gridSideCount * gridSideCount * gridSideCount) gridSideCount npos
      = (List.finRange n).filter
          (fun (j : Fin n) =>
            keys j.val = gridIndex3Dto1D npos.x npos.y npos.z gridSideCount) := by
  unfold gridCellCandidates
  by_cases hin : 0 ≤ gridIndex3Dto1D npos.x npos.y npos.z gridSideCount ∧
      gridIndex3Dto1D npos.x npos.y npos.z gridSideCount <
        gridSideCount * gridSideCount * gridSideCount
  · rw [if_pos hin]
    apply List.filter_congr
    intro j _
    apply decide_eq_decide.mpr
    exact cellRange_mem_iff n keys hs _ j.val j.isLt
  · rw [if_neg hin]
    symm
    rw [List.filter_eq_nil_iff]
    intro j _
    simp only [decide_eq_true_eq]
    intro hkj
    exact hin (hkj ▸ hkr j)

/-- Concatenating the runs of a duplicate-free list of cell values is a
permutation of the single filter by membership. -/
theorem flatMap_runs_perm (n : ℕ) (keys : ℕ → ℤ) :
    ∀ (cs : List ℤ), cs.Nodup →
      (cs.flatMap (fun c => (List.finRange n).filter
          (fun (j : Fin n) => keys j.val = c))).Perm
        ((List.finRange n).filter (fun (j : Fin n) => keys j.val ∈ cs)) := by
  intro cs
  induction cs with
  | nil =>
    intro _
    simp only [List.flatMap_nil]
    have hnil : ((List.finRange n).filter
        (fun (j : Fin n) => keys j.val ∈ ([] : List ℤ))) = [] := by
      rw [List.filter_eq_nil_iff]
      intro j _
      simp
    rw [hnil]
  | cons c cs ih =>
    intro hnd
    obtain ⟨hc, hnd'⟩ := List.nodup_cons.mp hnd
    rw [List.flatMap_cons]
    refine List.Perm.trans (List.Perm.append_left _ (ih hnd')) ?_
    rw [← Multiset.coe_eq_coe, ← Multiset.coe_add]
    show Multiset.filter (fun j : Fin n => keys j.val = c) (↑(List.finRange n))
        + Multiset.filter (fun j : Fin n => keys j.val ∈ cs) (↑(List.finRange n))
      = Multiset.filter (fun j : Fin n => keys j.val ∈ c :: cs) (↑(List.finRange n))
    rw [Multiset.filter_add_filter]
    have h0 : Multiset.filter
        (fun j : Fin n => keys j.val = c ∧ keys j.val ∈ cs)
        (↑(List.finRange n)) = 0 := by
      rw [Multiset.filter_eq_nil]
      rintro j _ ⟨h1, h2⟩
      exact hc (h1 ▸ h2)
    rw [h0, add_zero]
    apply Multiset.filter_congr
    intro j _
    simp [List.mem_cons]

/-! ### Geometric locality: particles within the interaction radius lie
in the 27-cell block -/

/-- Two coordinates closer than `5` land in cells at most one apart
(cell width `10`). -/
theorem floor_cell_close (s t : ℝ) (h : |s - t| < 5) :
    ⌊(t - gridMinimumValue) * gridInverseCellWidth⌋ - 1
        ≤ ⌊(s - gridMinimumValue) * gridInverseCellWidth⌋ ∧
      ⌊(s - gridMinimumValue) * gridInverseCellWidth⌋
        ≤ ⌊(t - gridMinimumValue) * gridInverseCellWidth⌋ + 1 := by
  rw [gridMinimumValue_eq, gridInverseCellWidth_eq]
  rw [abs_lt] at h
  constructor
  · have hle : (t - -110) * (1 / 10) ≤ (s - -110) * (1 / 10) + 1 := by nlinarith
    have := Int.floor_le_floor hle
    rw [show (s - -110) * (1 / 10) + 1 = (s - -110) * (1 / 10) + (1 : ℤ) by norm_num,
      Int.floor_add_int] at this
    omega
  · have hle : (s - -110) * (1 / 10) ≤ (t - -110) * (1 / 10) + 1 := by nlinarith
    have := Int.floor_le_floor hle
    rw [show (t - -110) * (1 / 10) + 1 = (t - -110) * (1 / 10) + (1 : ℤ) by norm_num,
      Int.floor_add_int] at this
    omega

/-- A particle within distance `5` of particle `i` has its flattened
cell index among the flattened indices of the 27 cells around `i`'s
cell. -/
theorem close_cell_mem_flats (n : ℕ) (st : BoidState n) (i j : Fin n)
    (hd : V3.dist (st.pos j) (st.pos i) < 5) :
    boidCellIndex n st j ∈ neighborOffsets.map (fun d =>
      gridIndex3Dto1D
        ((getGridIndex (st.pos i) gridInverseCellWidth gridMinV).x + d.x)
        ((getGridIndex (st.pos i) gridInverseCellWidth gridMinV).y + d.y)
        ((getGridIndex (st.pos i) gridInverseCellWidth gridMinV).z + d.z)
        gridSideCount) := by
  have hdx : |(st.pos j).x - (st.pos i).x| < 5 :=
    lt_of_le_of_lt (by simpa using V3.abs_x_le_length (st.pos j - st.pos i)) hd
  have hdy : |(st.pos j).y - (st.pos i).y| < 5 :=
    lt_of_le_of_lt (by simpa using V3.abs_y_le_length (st.pos j - st.pos i)) hd
  have hdz : |(st.pos j).z - (st.pos i).z| < 5 :=
    lt_of_le_of_lt (by simpa using V3.abs_z_le_length (st.pos j - st.pos i)) hd
  have hx := floor_cell_close (st.pos j).x (st.pos i).x hdx
  have hy := floor_cell_close (st.pos j).y (st.pos i).y hdy
  have hz := floor_cell_close (st.pos j).z (st.pos i).z hdz
  set ci := getGridIndex (st.pos i) gridInverseCellWidth gridMinV with hci
  set cj := getGridIndex (st.pos j) gridInverseCellWidth gridMinV with hcj
  have hxb : cj.x - ci.x = -1 ∨ cj.x - ci.x = 0 ∨ cj.x - ci.x = 1 := by
    have : ci.x - 1 ≤ cj.x ∧ cj.x ≤ ci.x + 1 := hx
    omega
  have hyb : cj.y - ci.y = -1 ∨ cj.y - ci.y = 0 ∨ cj.y - ci.y = 1 := by
    have : ci.y - 1 ≤ cj.y ∧ cj.y ≤ ci.y + 1 := hy
    omega
  have hzb : cj.z - ci.z = -1 ∨ cj.z - ci.z = 0 ∨ cj.z - ci.z = 1 := by
    have : ci.z - 1 ≤ cj.z ∧ cj.z ≤ ci.z + 1 := hz
    omega
  apply List.mem_map.mpr
  refine ⟨⟨cj.x - ci.x, cj.y - ci.y, cj.z - ci.z⟩,
    (mem_neighborOffsets_iff _).mpr ⟨hxb, hyb, hzb⟩, ?_⟩
  show gridIndex3Dto1D (ci.x + (cj.x - ci.x)) (ci.y + (cj.y - ci.y))
      (ci.z + (cj.z - ci.z)) gridSideCount = boidCellIndex n st j
  unfold boidCellIndex
  rw [← hcj]
  unfold gridIndex3Dto1D
  ring

/-! ### Filtering the candidate list to a superset of the in-radius
particles does not change the accumulation -/

theorem ruleNeighbors_filter_absorb {n : ℕ} (ρ : ℝ) (hρ : ρ ≤ 5)
    (pos : Fin n → V3) (self : Fin n) (p : Fin n → Bool)
    (hp : ∀ j, V3.dist (pos j) (pos self) < 5 → p j = true) :
    ruleNeighbors ρ pos self ((List.finRange n).filter p)
      = ruleNeighbors ρ pos self (List.finRange n) := by
  unfold ruleNeighbors
  rw [List.filter_filter]
  apply List.filter_congr
  intro j _
  by_cases hP : j ≠ self ∧ V3.dist (pos j) (pos self) < ρ
  · have hpj : p j = true := hp j (lt_of_lt_of_le hP.2 hρ)
    simp [hP, hpj]
  · simp [hP]

theorem velocityRules_filter_absorb {n : ℕ} (pos vel : Fin n → V3) (self : Fin n)
    (p : Fin n → Bool)
    (hp : ∀ j, V3.dist (pos j) (pos self) < 5 → p j = true) :
    velocityRules pos vel self ((List.finRange n).filter p)
      = velocityRules pos vel self (List.finRange n) := by
  unfold velocityRules
  rw [ruleNeighbors_filter_absorb rule1Distance (by norm_num [rule1Distance]) pos self p hp,
    ruleNeighbors_filter_absorb rule2Distance (by norm_num [rule2Distance]) pos self p hp,
    ruleNeighbors_filter_absorb rule3Distance (by norm_num [rule3Distance]) pos self p hp]

theorem filter_then_map {α β : Type} (f : α → β) (p : β → Bool) (l : List α) :
    (l.filter (fun a => p (f a))).map f = (l.map f).filter p :=
  (List.map_filter f l).symm

theorem finRange_map_perm (n : ℕ) (σ : Equiv.Perm (Fin n)) :
    ((List.finRange n).map (fun s => σ s)).Perm (List.finRange n) := by
  rw [← Multiset.coe_eq_coe]
  show Multiset.map (fun s => σ s) (Finset.univ.val) = (Finset.univ.val : Multiset (Fin n))
  exact Multiset.map_univ_val_equiv σ

/-- The scattered kernel's candidate list for particle `i` (already
dereferenced through `particleArrayIndices`) is a permutation of the
particles whose cell index lies among the flattened 27-block indices. -/
theorem scattered_cands_perm (n : ℕ) (st : BoidState n) (hb : st.inBounds)
    (σ : Equiv.Perm (Fin n)) (hσ : SortsKeys n (boidCellIndex n st) σ) (i : Fin n) :
    ((neighborOffsets.flatMap fun d =>
        gridCellCandidates n (kernIdentifyCellStartEnd n (sortedKeyArray n st σ)).1
          (kernIdentifyCellStartEnd n (sortedKeyArray n st σ)).2
          (gridSideCount * gridSideCount * gridSideCount) gridSideCount
          ⟨(getGridIndex (st.pos i) gridInverseCellWidth gridMinV).x + d.x,
           (getGridIndex (st.pos i) gridInverseCellWidth gridMinV).y + d.y,
           (getGridIndex (st.pos i) gridInverseCellWidth gridMinV).z + d.z⟩).map
        (fun s => σ s)).Perm
      ((List.finRange n).filter
        (fun j => decide (boidCellIndex n st j ∈ neighborOffsets.map (fun d =>
          gridIndex3Dto1D
            ((getGridIndex (st.pos i) gridInverseCellWidth gridMinV).x + d.x)
            ((getGridIndex (st.pos i) gridInverseCellWidth gridMinV).y + d.y)
            ((getGridIndex (st.pos i) gridInverseCellWidth gridMinV).z + d.z)
            gridSideCount)))) := by
  have hs := sortedKeyArray_sortedBelow n st σ hσ
  have hkr : ∀ j : Fin n, 0 ≤ sortedKeyArray n st σ j.val ∧
      sortedKeyArray n st σ j.val < gridSideCount * gridSideCount * gridSideCount := by
    intro j
    rw [sortedKeyArray_val]
    exact boidCellIndex_range n st hb (σ j)
  have hfun : (fun d : I3 =>
      gridCellCandidates n (kernIdentifyCellStartEnd n (sortedKeyArray n st σ)).1
        (kernIdentifyCellStartEnd n (sortedKeyArray n st σ)).2
        (gridSideCount * gridSideCount * gridSideCount) gridSideCount
        ⟨(getGridIndex (st.pos i) gridInverseCellWidth gridMinV).x + d.x,
         (getGridIndex (st.pos i) gridInverseCellWidth gridMinV).y + d.y,
         (getGridIndex (st.pos i) gridInverseCellWidth gridMinV).z + d.z⟩)
      = fun d : I3 => (List.finRange n).filter
          (fun (j : Fin n) => sortedKeyArray n st σ j.val
            = gridIndex3Dto1D
                ((getGridIndex (st.pos i) gridInverseCellWidth gridMinV).x + d.x)
                ((getGridIndex (st.pos i) gridInverseCellWidth gridMinV).y + d.y)
                ((getGridIndex (st.pos i) gridInverseCellWidth gridMinV).z + d.z)
                gridSideCount) :=
    funext fun d => gridCellCandidates_eq_run n (sortedKeyArray n st σ) hs hkr _
  rw [hfun]
  have h2 : (neighborOffsets.flatMap fun d : I3 => (List.finRange n).filter
        (fun (j : Fin n) => sortedKeyArray n st σ j.val
          = gridIndex3Dto1D
              ((getGridIndex (st.pos i) gridInverseCellWidth gridMinV).x + d.x)
              ((getGridIndex (st.pos i) gridInverseCellWidth gridMinV).y + d.y)
              ((getGridIndex (st.pos i) gridInverseCellWidth gridMinV).z + d.z)
              gridSideCount))
      = ((neighborOffsets.map (fun d : I3 =>
          gridIndex3Dto1D
            ((getGridIndex (st.pos i) gridInverseCellWidth gridMinV).x + d.x)
            ((getGridIndex (st.pos i) gridInverseCellWidth gridMinV).y + d.y)
            ((getGridIndex (st.pos i) gridInverseCellWidth gridMinV).z + d.z)
            gridSideCount)).flatMap (fun c => (List.finRange n).filter
          (fun (j : Fin n) => sortedKeyArray n st σ j.val = c))) :=
    (List.flatMap_map
      (fun d : I3 =>
        gridIndex3Dto1D
          ((getGridIndex (st.pos i) gridInverseCellWidth gridMinV).x + d.x)
          ((getGridIndex (st.pos i) gridInverseCellWidth gridMinV).y + d.y)
          ((getGridIndex (st.pos i) gridInverseCellWidth gridMinV).z + d.z)
          gridSideCount)
      (fun c => (List.finRange n).filter
        (fun (j : Fin n) => sortedKeyArray n st σ j.val = c))
      neighborOffsets).symm
  rw [h2]
  refine List.Perm.trans ?_ ((finRange_map_perm n σ).filter
    (fun j => decide (boidCellIndex n st j ∈ neighborOffsets.map (fun d : I3 =>
      gridIndex3Dto1D
        ((getGridIndex (st.pos i) gridInverseCellWidth gridMinV).x + d.x)
        ((getGridIndex (st.pos i) gridInverseCellWidth gridMinV).y + d.y)
        ((getGridIndex (st.pos i) gridInverseCellWidth gridMinV).z + d.z)
        gridSideCount))))
  rw [← filter_then_map]
  apply List.Perm.map
  refine (flatMap_runs_perm n (sortedKeyArray n st σ) _ (flats_nodup _)).trans ?_
  have E2 : ((List.finRange n).filter
      (fun (j : Fin n) => sortedKeyArray n st σ j.val ∈ neighborOffsets.map (fun d : I3 =>
        gridIndex3Dto1D
          ((getGridIndex (st.pos i) gridInverseCellWidth gridMinV).x + d.x)
          ((getGridIndex (st.pos i) gridInverseCellWidth gridMinV).y + d.y)
          ((getGridIndex (st.pos i) gridInverseCellWidth gridMinV).z + d.z)
          gridSideCount)))
      = ((List.finRange n).filter
        (fun (s : Fin n) => decide (boidCellIndex n st (σ s) ∈ neighborOffsets.map (fun d : I3 =>
          gridIndex3Dto1D
            ((getGridIndex (st.pos i) gridInverseCellWidth gridMinV).x + d.x)
            ((getGridIndex (st.pos i) gridInverseCellWidth gridMinV).y + d.y)
            ((getGridIndex (st.pos i) gridInverseCellWidth gridMinV).z + d.z)
            gridSideCount)))) := by
    apply List.filter_congr
    intro s _
    rw [sortedKeyArray_val]
  rw [E2]

/-- The scattered neighbour-search kernel computes exactly the
brute-force velocity update (exact arithmetic). -/
theorem scattered_kernel_eq_naive (n : ℕ) (st : BoidState n) (hb : st.inBounds)
    (σ : Equiv.Perm (Fin n)) (hσ : SortsKeys n (boidCellIndex n st) σ) :
    kernUpdateVelNeighborSearchScattered n gridSideCount gridMinV gridInverseCellWidth
        (kernIdentifyCellStartEnd n (sortedKeyArray n st σ)).1
        (kernIdentifyCellStartEnd n (sortedKeyArray n st σ)).2
        (fun s => σ s) st.pos st.vel
      = kernUpdateVelocityBruteForce n st.pos st.vel := by
  funext i
  simp only [kernUpdateVelNeighborSearchScattered, kernUpdateVelocityBruteForce,
    computeVelocityChange]
  congr 1
  congr 1
  refine (velocityRules_perm st.pos st.vel i (scattered_cands_perm n st hb σ hσ i)).trans ?_
  exact velocityRules_filter_absorb st.pos st.vel i _
    (fun j hd => by
      rw [decide_eq_true_eq]
      exact close_cell_mem_flats n st i j hd)

/-- `Boids::stepSimulationScatteredGrid` equals the naive step. -/
theorem scattered_step_eq_naive (n : ℕ) (dt : ℝ) (st : BoidState n)
    (hb : st.inBounds) (σ : Equiv.Perm (Fin n))
    (hσ : SortsKeys n (boidCellIndex n st) σ) :
    stepSimulationScatteredGrid n dt σ st = stepSimulationNaive n dt st := by
  simp only [stepSimulationScatteredGrid, stepSimulationNaive]
  rw [scattered_kernel_eq_naive n st hb σ hσ]

/-- The coherent neighbour-search kernel on the gathered buffers
computes, at sorted slot `s`, the brute-force update of particle `σ s`. -/
theorem coherent_kernel_eq_naive (n : ℕ) (st : BoidState n) (hb : st.inBounds)
    (σ : Equiv.Perm (Fin n)) (hσ : SortsKeys n (boidCellIndex n st) σ) :
    kernUpdateVelNeighborSearchCoherent n gridSideCount gridMinV gridInverseCellWidth
        (kernIdentifyCellStartEnd n (sortedKeyArray n st σ)).1
        (kernIdentifyCellStartEnd n (sortedKeyArray n st σ)).2
        (kernFillCoherentArrays n (fun s => σ s) st.pos)
        (kernFillCoherentArrays n (fun s => σ s) st.vel)
      = fun s => kernUpdateVelocityBruteForce n st.pos st.vel (σ s) := by
  funext s
  simp only [kernUpdateVelNeighborSearchCoherent, kernFillCoherentArrays,
    kernUpdateVelocityBruteForce, computeVelocityChange]
  congr 1
  congr 1
  have hg1 : kernFillCoherentArrays n (fun s => σ s) st.pos = fun j => st.pos (σ j) := rfl
  have hg2 : kernFillCoherentArrays n (fun s => σ s) st.vel = fun j => st.vel (σ j) := rfl
  rw [hg1, hg2, ← velocityRules_map_inj (fun s => σ s) σ.injective st.pos st.vel s]
  refine (velocityRules_perm st.pos st.vel (σ s)
    (scattered_cands_perm n st hb σ hσ (σ s))).trans ?_
  exact velocityRules_filter_absorb st.pos st.vel (σ s) _
    (fun j hd => by
      rw [decide_eq_true_eq]
      exact close_cell_mem_flats n st (σ s) j hd)

/-- Scattering `h ∘ σ` back through the permutation `σ` reconstructs `h`. -/
theorem fillOriginal_gather (n : ℕ) (σ : Equiv.Perm (Fin n)) (orig h : Fin n → V3) :
    kernFillOriginalArrays n (fun s => σ s) orig (fun s => h (σ s)) = h := by
  funext j
  unfold kernFillOriginalArrays
  rw [foldl_update_apply_const (List.finRange n) orig (fun s => σ s)
    (fun s => h (σ s)) j (h j) (fun i _ hgi => congrArg h hgi)]
  rw [if_pos ⟨σ.symm j, List.mem_finRange _, σ.apply_symm_apply j⟩]

/-- `Boids::stepSimulationCoherentGrid` equals the naive step. -/
theorem coherent_step_eq_naive (n : ℕ) (dt : ℝ) (st : BoidState n)
    (hb : st.inBounds) (σ : Equiv.Perm (Fin n))
    (hσ : SortsKeys n (boidCellIndex n st) σ) :
    stepSimulationCoherentGrid n dt σ st = stepSimulationNaive n dt st := by
  simp only [stepSimulationCoherentGrid, stepSimulationNaive]
  rw [coherent_kernel_eq_naive n st hb σ hσ]
  have hpos : kernUpdatePos n dt (kernFillCoherentArrays n (fun s => σ s) st.pos)
      (fun s => kernUpdateVelocityBruteForce n st.pos st.vel (σ s))
      = fun s => kernUpdatePos n dt st.pos
          (kernUpdateVelocityBruteForce n st.pos st.vel) (σ s) := by
    funext s
    simp only [kernUpdatePos, kernFillCoherentArrays]
  rw [hpos, fillOriginal_gather, fillOriginal_gather]

/-- C1 (confirmed): one simulation step of the naive brute-force, the
grid-scattered and the grid-coherent strategies produce identical
positions and velocities for every particle, for every in-bounds state,
every `dt`, and every (unstable) sort outcome of either grid strategy —
in the exact-arithmetic model, i.e. up to floating-point
summation-order differences. -/
theorem c1_strategy_equivalence (n : ℕ) (dt : ℝ) (st : BoidState n)
    (hb : st.inBounds) (σ τ : Equiv.Perm (Fin n))
    (hσ : SortsKeys n (boidCellIndex n st) σ)
    (hτ : SortsKeys n (boidCellIndex n st) τ) :
    stepSimulationScatteredGrid n dt σ st = stepSimulationNaive n dt st ∧
    stepSimulationCoherentGrid n dt τ st = stepSimulationNaive n dt st :=
  ⟨scattered_step_eq_naive n dt st hb σ hσ, coherent_step_eq_naive n dt st hb τ hτ⟩

/-- A one-particle state at the origin with zero velocity (for the C1
witness). -/
def oneBoidState : BoidState 1 := ⟨fun _ => ⟨0, 0, 0⟩, fun _ => ⟨0, 0, 0⟩⟩

/-- Witness for C1: a single particle at the origin with zero velocity,
identity sort permutation, `dt = 1`. -/
theorem c1_witness :
    (oneBoidState.inBounds ∧ SortsKeys 1 (boidCellIndex 1 oneBoidState) 1) ∧
    stepSimulationScatteredGrid 1 1 1 oneBoidState
        = stepSimulationNaive 1 1 oneBoidState ∧
    stepSimulationCoherentGrid 1 1 1 oneBoidState
        = stepSimulationNaive 1 1 oneBoidState := by
  have hb : oneBoidState.inBounds := by
    intro i
    refine ⟨?_, ?_, ?_⟩ <;> norm_num [oneBoidState, scene_scale]
  have hσ : SortsKeys 1 (boidCellIndex 1 oneBoidState) 1 := by
    intro s t _
    rw [Subsingleton.elim s t]
  have h := c1_strategy_equivalence 1 1 oneBoidState hb 1 1 hσ hσ
  exact ⟨⟨hb, hσ⟩, h.1, h.2⟩
